import Mathlib

/-!
Verification of the raffle reconciliation and statistical audit engine.

This file gives a shallow embedding of the core algorithms of the
`farm-merge-raffles-public` scripts:

* the field normalizer (`get_star`, `get_participant_info`, winner presence)
  duplicated across `raffle_dash.py`, `verify_participant_counts.py`,
  `stats_by_user.py` and `export_reverify_list.py`;
* the record reconciler (`score_entry` + `add_entry`/`consider`);
* the distribution statistics engine (`percentile`, `compute_stats`,
  `stats_from_values`);
* the outlier detector (the flagging loop of `verify_participant_counts.main`);
* the fairness estimator (`generate_daily_post.compute_stats`).

Modelling conventions:

* Loosely structured JSON records are modelled by the inductive `J`.
  Lists are restricted to lists of scalar atoms (`JAtom`): every list the
  scripts inspect is a `participantIds` list of scalar identifiers, and no
  claim exercises nested containers inside lists.
* Python `dict.get` returning `None` (for a missing key or an explicit JSON
  null) is modelled by `Option J` with nulls flattened to `none`; the scripts
  only distinguish the two via `is None` / truthiness, which agree with this
  flattening.
* Python numbers are modelled by `Int` / `ℚ` (exact arithmetic). No claim in
  scope depends on binary floating-point rounding; presentation-time
  `round(...)` calls are abstracted (see `stats_from_values`).
* `math.exp` is modelled by the real exponential `Real.exp`.
* Python's stable `sorted` is modelled by the stable insertion sort `sortBy`.
* Python `set(...)` iteration order is unspecified; the embedding fixes a
  deterministic order (`List.dedup`, first-insertion counters).  All claims
  in scope are invariant under this order.
-/

namespace FMR

/-- Scalar JSON atoms: the values that appear inside `participantIds` lists. -/
inductive JAtom where
  | anull
  | abool (b : Bool)
  | aint (n : Int)
  | afloat (q : ℚ)
  | astr (s : String)
  deriving DecidableEq, Repr

/-- Loosely structured JSON record values, as consumed by the scripts. -/
inductive J where
  | null
  | jbool (b : Bool)
  | jint (n : Int)
  | jfloat (q : ℚ)
  | jstr (s : String)
  | jlist (xs : List JAtom)
  | jobj (fields : List (String × J))

/-- Python truthiness of a value (`if value:`). -/
def truthy : J → Bool
  | J.null => false
  | J.jbool b => b
  | J.jint n => n != 0
  | J.jfloat q => q != 0
  | J.jstr s => s != ""
  | J.jlist xs => !xs.isEmpty
  | J.jobj fs => !fs.isEmpty

/-- Truthiness of a `dict.get` result (Python `None` is falsy). -/
def truthyOpt : Option J → Bool
  | none => false
  | some v => truthy v

/-- `obj.get(key)` guarded by `isinstance(obj, dict)`: returns `none` when the
container is not a dict, the key is missing, or the stored value is JSON null
(Python `None`). -/
def jget : J → String → Option J
  | J.jobj fs, k =>
    match fs.find? (fun p => p.1 == k) with
    | some (_, J.null) => none
    | some (_, v) => some v
    | none => none
  | _, _ => none

/-- Keep a looked-up value only when it is a dict
(the `isinstance(raffle_data, dict)` guards). -/
def asObj : Option J → Option J
  | some (J.jobj fs) => some (J.jobj fs)
  | _ => none

/-- `entry.get(key) or {}`: fall back to an empty dict on a falsy value. -/
def orEmptyObj (o : Option J) : J :=
  match o with
  | some v => if truthy v then v else J.jobj []
  | none => J.jobj []

/-- Python `a or b` on two `dict.get` results: the first truthy value wins,
otherwise the second value is returned unchanged. -/
def orTruthy (a b : Option J) : Option J :=
  if truthyOpt a then a else b

/-- Truncation toward zero, Python `int(float)`. -/
def pyTruncQ (q : ℚ) : Int :=
  if 0 ≤ q then ⌊q⌋ else ⌈q⌉

/-- ASCII whitespace, for Python `str.strip()`. -/
def isSpaceChar (c : Char) : Bool :=
  c = ' ' || c = '\t' || c = '\n' || c = '\r'

/-- Strip leading and trailing whitespace from a character list. -/
def trimChars (cs : List Char) : List Char :=
  ((cs.dropWhile isSpaceChar).reverse.dropWhile isSpaceChar).reverse

/-- Parse a non-empty all-digit character list as a natural number. -/
def digitsToNat? (cs : List Char) : Option Nat :=
  if cs = [] then none
  else if cs.all (fun c => c.isDigit) then
    some (cs.foldl (fun acc c => acc * 10 + (c.toNat - 48)) 0)
  else none

/-- Python `int(str)`: optional surrounding whitespace, an optional sign and
decimal digits (digit-group underscores, irrelevant to every claim, are not
modelled). -/
def pyParseInt (s : String) : Option Int :=
  match trimChars s.data with
  | '-' :: rest => (digitsToNat? rest).map (fun n => -(n : Int))
  | '+' :: rest => (digitsToNat? rest).map (fun n => (n : Int))
  | cs => (digitsToNat? cs).map (fun n => (n : Int))

/-- Code-point comparison of character lists (Python string `<`). -/
def strLtChars : List Char → List Char → Bool
  | [], [] => false
  | [], _ :: _ => true
  | _ :: _, [] => false
  | a :: as, b :: bs =>
    if a.toNat < b.toNat then true
    else if b.toNat < a.toNat then false
    else strLtChars as bs

/-- Python string `<`. -/
def pyStrLt (a b : String) : Bool :=
  strLtChars a.data b.data

/-- Python string `≤` (total order, so `a <= b` iff not `b < a`). -/
def pyStrLe (a b : String) : Bool :=
  !pyStrLt b a

/-- Python `int(x)` coercion on a JSON value; `none` models the
`TypeError`/`ValueError` the scripts catch. -/
def pyToInt : J → Option Int
  | J.jbool b => some (cond b 1 0)
  | J.jint n => some n
  | J.jfloat q => some (pyTruncQ q)
  | J.jstr s => pyParseInt s
  | _ => none

/-- Python `int(x)` where `x` came from `dict.get` (so `none` is `None`). -/
def pyToInt? (o : Option J) : Option Int :=
  o.bind pyToInt

/-- Python `str(x)` for the values the winner logic touches. Containers have a
placeholder spelling: no claim compares their string forms. -/
def pyStr : J → String
  | J.jstr s => s
  | J.jint n => toString n
  | J.jbool b => cond b "True" "False"
  | J.jfloat q => toString q
  | J.null => "None"
  | J.jlist _ => "(list)"
  | J.jobj _ => "(dict)"

/-! ## Field normalizer -/

/-- The raw star value: the nested `raffle.stickerStars` field first, falling
back to the top-level `stickerStars` field (shared by all four scripts). -/
def starRaw (raffle : J) : Option J :=
  ((jget raffle "raffle").bind (fun d => jget d "stickerStars")) <|>
    jget raffle "stickerStars"

/-- `get_star` of `verify_participant_counts.py`, `stats_by_user.py` and
`export_reverify_list.py` (textually identical in the three scripts):
integer coercion of the raw star value, `None` on coercion failure,
and no 1–5 range check. -/
def get_star_audit (raffle : J) : Option Int :=
  pyToInt? (starRaw raffle)

/-- `get_star` of `raffle_dash.py`: same coercion, then
`star if 1 <= star <= 5 else None`. -/
def get_star_dash (raffle : J) : Option Int :=
  match pyToInt? (starRaw raffle) with
  | some star => if 1 ≤ star ∧ star ≤ 5 then some star else none
  | none => none

/-- The nested `raffle` sub-object, `none` unless it is a dict. -/
def raffleData (raffle : J) : Option J :=
  asObj (jget raffle "raffle")

/-- The nested `raffle.participantIds` value when it is a list. -/
def idsOf (raffle : J) : Option (List JAtom) :=
  (raffleData raffle).bind (fun d =>
    match jget d "participantIds" with
    | some (J.jlist xs) => some xs
    | _ => none)

/-- `ids_len`: length of the participant-id list when present. -/
def idsLenOf (raffle : J) : Option Int :=
  (idsOf raffle).map (fun xs => (xs.length : Int))

/-- The nested `raffle.participantCount` value. -/
def nestedCountRaw (raffle : J) : Option J :=
  (raffleData raffle).bind (fun d => jget d "participantCount")

/-- `get_participant_info` of `verify_participant_counts.py` and
`export_reverify_list.py` (textually identical): `(count, ids_len)` where the
count prefers the coerced explicit `participantCount` and falls back to the
id-list length. -/
def get_participant_info_audit (raffle : J) : Option Int × Option Int :=
  ((pyToInt? (nestedCountRaw raffle)) <|> idsLenOf raffle, idsLenOf raffle)

/-- `get_participant_count` of `stats_by_user.py`: coerced explicit count
first, id-list length as the fallback, `None` when neither exists. -/
def get_participant_count_user (raffle : J) : Option Int :=
  (pyToInt? (nestedCountRaw raffle)) <|> idsLenOf raffle

/-- `get_participant_info` of `raffle_dash.py`: `(count, ids, has_ids)`.
When `participantIds` is a list its length is returned immediately; the
explicit `participantCount` is consulted only otherwise. -/
def get_participant_info_dash (raffle : J) :
    Option Int × Option (List JAtom) × Bool :=
  match raffleData raffle with
  | none => (none, none, false)
  | some d =>
    match jget d "participantIds" with
    | some (J.jlist xs) => (some (xs.length : Int), some xs, true)
    | _ =>
      match pyToInt? (jget d "participantCount") with
      | some n => (some n, none, false)
      | none => (none, none, false)

/-- `get_winner` of `verify_participant_counts.py` / `stats_by_user.py`:
`(winner_id, winner_name or "")`, read from the `winner` sub-object when it is
a dict and from the top-level fields otherwise. -/
def get_winner (raffle : J) : Option J × J :=
  match asObj (jget raffle "winner") with
  | some w =>
    (jget w "winnerId",
      match jget w "winnerName" with
      | some v => if truthy v then v else J.jstr ""
      | none => J.jstr "")
  | none =>
    (jget raffle "winnerId",
      match jget raffle "winnerName" with
      | some v => if truthy v then v else J.jstr ""
      | none => J.jstr "")

/-- `normalize_name`: strip, drop leading `/`, drop a leading `u/`
(case-insensitive), strip again. -/
def normalize_name (raw : String) : String :=
  let name := (raw.trim.dropWhile (fun c => c = '/'))
  let name := if name.toLower.startsWith "u/" then name.drop 2 else name
  name.trim

/-- `winner_present`: a truthy winner id, or a winner name that survives
normalization. -/
def winner_present (raffle : J) : Bool :=
  let p := get_winner raffle
  truthyOpt p.1 || (normalize_name (pyStr p.2) != "")

/-! ## Record reconciler -/

/-- `score_entry` of `stats_by_user.py` / `export_reverify_list.py`: the
4-tuple completeness score (winner, participant signal, stars, sticker name),
each component `1` or `0`. -/
def score_entry (entry : J) : Nat × Nat × Nat × Nat :=
  let w := orEmptyObj (jget entry "winner")
  let r := orEmptyObj (jget entry "raffle")
  (cond (truthyOpt (jget w "winnerName") || truthyOpt (jget w "winnerId")) 1 0,
    cond ((jget r "participantCount").isSome || (jget r "participantIds").isSome) 1 0,
    cond (jget r "stickerStars").isSome 1 0,
    cond (jget r "stickerName").isSome 1 0)

/-- Python `>` on 4-tuples: lexicographic strict comparison. -/
def tuple4Gt (a b : Nat × Nat × Nat × Nat) : Bool :=
  decide (a.1 > b.1) ||
    (a.1 == b.1 && (decide (a.2.1 > b.2.1) ||
      (a.2.1 == b.2.1 && (decide (a.2.2.1 > b.2.2.1) ||
        (a.2.2.1 == b.2.2.1 && decide (a.2.2.2 > b.2.2.2))))))

/-- One step of `add_entry` (`stats_by_user.py`) / `consider`
(`export_reverify_list.py`) for a fixed identifier: keep the existing
observation unless the new one scores strictly higher. -/
def reconcileStep (existing : Option J) (entry : J) : Option J :=
  match existing with
  | none => some entry
  | some ex =>
    if tuple4Gt (score_entry entry) (score_entry ex) then some entry else some ex

/-- Offer a sequence of observations of one identifier, in order. -/
def reconcile (entries : List J) : Option J :=
  entries.foldl reconcileStep none

/-- The dedup of `verify_participant_counts.main` (lines 339–344): a plain
first-seen filter over `(post_id, raffle)` pairs — `if post_id in seen:
continue` — with no completeness comparison at all. -/
def firstSeenAux (seen : List String) : List (String × J) → List (String × J)
  | [] => []
  | (pid, r) :: rest =>
    if pid ∈ seen then firstSeenAux seen rest
    else (pid, r) :: firstSeenAux (pid :: seen) rest

/-- The record list retained by `verify_participant_counts.main` from a
sequence of `(post_id, raffle)` observations offered in source order. -/
def firstSeenRecords (obs : List (String × J)) : List (String × J) :=
  firstSeenAux [] obs

/-! ## Distribution statistics engine -/

/-- Stable insertion into a `le`-sorted list. -/
def insertLe {α : Type} (le : α → α → Bool) (a : α) : List α → List α
  | [] => [a]
  | b :: bs => if le a b then a :: b :: bs else b :: insertLe le a bs

/-- Stable insertion sort: the model of Python's stable `sorted` / `list.sort`. -/
def sortBy {α : Type} (le : α → α → Bool) : List α → List α
  | [] => []
  | x :: xs => insertLe le x (sortBy le xs)

/-- `sorted(values)` for numbers. -/
def qsortAsc (l : List ℚ) : List ℚ :=
  sortBy (fun a b => decide (a ≤ b)) l

/-- `percentile(values, pct)` of `verify_participant_counts.py` /
`raffle_dash.py` (textually identical): linear interpolation between order
statistics; `None` on the empty sample.  The scripts only call it with
`pct` in `[0, 100]`. -/
def percentile (values : List ℚ) (pct : ℚ) : Option ℚ :=
  if values = [] then none
  else
    let s := qsortAsc values
    if s.length = 1 then some (s.getD 0 0)
    else
      let k : ℚ := ((s.length : ℚ) - 1) * (pct / 100)
      let f : Int := pyTruncQ k
      let c : Int := min (f + 1) ((s.length : Int) - 1)
      if f = c then some (s.getD f.toNat 0)
      else some (s.getD f.toNat 0 +
        (s.getD c.toNat 0 - s.getD f.toNat 0) * (k - (f : ℚ)))

/-- The per-stratum distribution summary of `verify_participant_counts.py`
(`compute_stats`): `Option` fields model the explicit `None` placeholders. -/
structure AuditStats where
  n : Nat
  min : Option ℚ
  p10 : Option ℚ
  p25 : Option ℚ
  median : Option ℚ
  p75 : Option ℚ
  p90 : Option ℚ
  max : Option ℚ
  iqr : Option ℚ
  deriving DecidableEq, Repr

/-- `compute_stats(values)` of `verify_participant_counts.py`. -/
def compute_stats (values : List ℚ) : AuditStats :=
  if values = [] then ⟨0, none, none, none, none, none, none, none, none⟩
  else
    let s := qsortAsc values
    let p25 := percentile s 25
    let p75 := percentile s 75
    { n := s.length
      min := some (s.getD 0 0)
      p10 := percentile s 10
      p25 := p25
      median := percentile s 50
      p75 := p75
      p90 := percentile s 90
      max := some (s.getLastD 0)
      iqr :=
        match p25, p75 with
        | some a, some b => some (b - a)
        | _, _ => none }

/-- The summary of `raffle_dash.py` (`stats_from_values`): on the empty sample
only `"n": 0` is emitted, modelled as `none` for every other field. -/
structure DashStats where
  n : Nat
  avg : Option ℚ
  median : Option ℚ
  p90 : Option ℚ
  min : Option ℚ
  max : Option ℚ
  deriving DecidableEq, Repr

/-- `stats_from_values(values, precision)` of `raffle_dash.py`, parametrized by
the presentation-time rounding function `rnd` (Python `round(x, precision)`,
a float operation the claims in scope never depend on). -/
def stats_from_values (rnd : ℚ → ℚ) (values : List ℚ) : DashStats :=
  if values = [] then ⟨0, none, none, none, none, none⟩
  else
    let s := qsortAsc values
    { n := s.length
      avg := some (rnd (s.sum / (s.length : ℚ)))
      median := (percentile s 50).map rnd
      p90 := (percentile s 90).map rnd
      min := some (s.getD 0 0)
      max := some (s.getLastD 0) }

/-- Modelled from the spec: the conventional median of a sample — the middle
element of the sorted sample for odd length, the mean of the two middle
elements for even length (the library-independent reference of §8). -/
def medianRef (values : List ℚ) : ℚ :=
  let s := qsortAsc values
  if s.length % 2 = 1 then s.getD (s.length / 2) 0
  else (s.getD (s.length / 2 - 1) 0 + s.getD (s.length / 2) 0) / 2

/-! ## Outlier detector (`verify_participant_counts.main`, lines 364–420) -/

/-- One unified record row as built by the main loop (the fields the audit
logic reads; display-only fields carry no logic). -/
structure Row where
  postId : String
  dayKey : String
  stars : Option Int
  stickerName : String
  ended : Bool
  settled : Bool
  participantCount : Option Int
  participantIdsLength : Option Int
  deriving DecidableEq, Repr

/-- The audit configuration: `--stars` (`none` = `all`), `--min-count`,
`--iqr-mult`, `--five-star-rel`. -/
structure AuditConfig where
  starFilter : Option (List Int)
  minCount : Int
  iqrMult : ℚ
  fiveStarRel : ℚ
  deriving DecidableEq, Repr

/-- `star_filter is not None and stars not in star_filter` → skip. -/
def passStarFilter (cfg : AuditConfig) (r : Row) : Bool :=
  match cfg.starFilter with
  | none => true
  | some l =>
    match r.stars with
    | some s => decide (s ∈ l)
    | none => false

/-- `per_star_counts[star_key]`: the participant counts of the ended, settled
rows with this star key (`none` models the `"unknown"` bucket key). -/
def sampleFor (rows : List Row) (k : Option Int) : List ℚ :=
  rows.filterMap (fun r =>
    if r.ended && r.settled && decide (r.stars = k) then
      r.participantCount.map (fun c => (c : ℚ))
    else none)

/-- The candidate thresholds, in the order the script appends them:
`min_count`, `p10 * 0.5`, `p25 - iqr_mult * iqr`, and for 5-star rows only
`median * five_star_rel`. -/
def candidateThresholds (cfg : AuditConfig) (stars : Option Int)
    (s : AuditStats) : List ℚ :=
  [(cfg.minCount : ℚ)]
    ++ (match s.p10 with
        | some v => [v * (1 / 2)]
        | none => [])
    ++ (match s.iqr, s.p25 with
        | some i, some q25 => [q25 - cfg.iqrMult * i]
        | _, _ => [])
    ++ (if stars = some 5 then
          match s.median with
          | some m => [m * cfg.fiveStarRel]
          | none => []
        else [])

/-- `max(t for t in thresholds if t is not None and t > 0)`. `none` models the
`ValueError` Python raises when no candidate is positive (the configured
minimum is positive in every configuration the claims exercise). -/
def maxPos (l : List ℚ) : Option ℚ :=
  (l.filter (fun t => decide (0 < t))).max?

/-- The effective low-outlier threshold for a stratum. -/
def effectiveThreshold (cfg : AuditConfig) (stars : Option Int)
    (s : AuditStats) : Option ℚ :=
  maxPos (candidateThresholds cfg stars s)

/-- Whether the main loop appends this row to `mismatches`. -/
def mismatchFlag (cfg : AuditConfig) (r : Row) : Bool :=
  passStarFilter cfg r && r.ended && r.settled &&
    (match r.participantIdsLength, r.participantCount with
     | some l, some c => decide (l ≠ c)
     | _, _ => false)

/-- Whether the main loop appends this row to `low_outliers`. -/
def lowFlag (cfg : AuditConfig) (rows : List Row) (r : Row) : Bool :=
  passStarFilter cfg r && r.ended && r.settled &&
    (match r.participantCount with
     | none => false
     | some c =>
       let smp := sampleFor rows r.stars
       if smp = [] then false
       else
         match effectiveThreshold cfg r.stars (compute_stats smp) with
         | some th => decide ((c : ℚ) < th)
         | none => false)

/-- Sort key for mismatches: `(dayKey, postId)` ascending. -/
def mismRowLe (a b : Row) : Bool :=
  pyStrLt a.dayKey b.dayKey ||
    (a.dayKey == b.dayKey && pyStrLe a.postId b.postId)

/-- Sort key for low outliers: `(participantCount, dayKey, postId)` ascending
(every flagged row has a count). -/
def lowRowLe (a b : Row) : Bool :=
  decide (a.participantCount.getD 0 < b.participantCount.getD 0) ||
    (a.participantCount.getD 0 == b.participantCount.getD 0 &&
      (pyStrLt a.dayKey b.dayKey ||
        (a.dayKey == b.dayKey && pyStrLe a.postId b.postId)))

/-- The sorted mismatch report of one run. -/
def auditMismatches (cfg : AuditConfig) (rows : List Row) : List Row :=
  sortBy mismRowLe (rows.filter (mismatchFlag cfg))

/-- The sorted low-outlier report of one run (the report also carries the
rounded threshold next to each row; only row identity matters to the claims). -/
def auditLowOutliers (cfg : AuditConfig) (rows : List Row) : List Row :=
  sortBy lowRowLe (rows.filter (lowFlag cfg rows))

/-! ## Fairness estimator (`generate_daily_post.compute_stats`) -/

/-- The exclusion configuration of `generate_daily_post.py`
(`DEFAULT_WINNER_EXCLUDES`, already lower-cased as in `main`, and
`DEFAULT_EXCLUDED_IDS`). -/
structure FairConfig where
  excludedNames : List String
  excludedIds : List String
  deriving DecidableEq, Repr

/-- `entry.get("raffle") or {}`. -/
def entryRaffle (e : J) : J :=
  orEmptyObj (jget e "raffle")

/-- The coerced star rating of one bucket entry. -/
def entryStars (e : J) : Option Int :=
  pyToInt? (jget (entryRaffle e) "stickerStars")

/-- `raffle.get("participantIds")` when it is a list. -/
def entryIds (e : J) : Option (List JAtom) :=
  match jget (entryRaffle e) "participantIds" with
  | some (J.jlist xs) => some xs
  | _ => none

/-- `pid not in excluded_ids` (negated): only string ids can be excluded. -/
def isExcludedId (cfg : FairConfig) (a : JAtom) : Bool :=
  match a with
  | JAtom.astr s => decide (s ∈ cfg.excludedIds)
  | _ => false

/-- `filtered_unique = set(filtered_ids)`: the distinct non-excluded
participant ids of one entry (set order is unspecified in Python; the
embedding fixes one order, which no claim observes). -/
def uniqOf (cfg : FairConfig) (e : J) : List JAtom :=
  match entryIds e with
  | some xs => (xs.filter (fun a => !isExcludedId cfg a)).dedup
  | none => []

/-- `Counter`-style increment on an insertion-ordered association list. -/
def cincr {α β : Type} [DecidableEq α] [Add β] :
    List (α × β) → α → β → List (α × β)
  | [], k, v => [(k, v)]
  | (k', v') :: rest, k, v =>
    if k = k' then (k', v' + v) :: rest else (k', v') :: cincr rest k v

/-- The per-record contribution to the 5★ counters: the distinct participant
set together with the per-draw win probability `1 / len(filtered_unique)`,
for entries with a list of participant ids, star rating 5 and a non-empty
distinct set. -/
def fiveStarContribs (cfg : FairConfig) (bucket : List J) :
    List (List JAtom × ℚ) :=
  bucket.filterMap (fun e =>
    match entryIds e with
    | some _ =>
      if entryStars e = some 5 ∧ uniqOf cfg e ≠ [] then
        some (uniqOf cfg e, 1 / ((uniqOf cfg e).length : ℚ))
      else none
    | none => none)

/-- Fold one record's contribution into a counter, adding `w` for every
distinct participant of the record. -/
def addContrib {α β : Type} [DecidableEq α] [Add β] (w : β) (c : List (α × β))
    (us : List α) : List (α × β) :=
  us.foldl (fun acc pid => cincr acc pid w) c

/-- `five_star_lambda`: each participant's accumulated win probability. -/
def five_star_lambda (cfg : FairConfig) (bucket : List J) :
    List (JAtom × ℚ) :=
  (fiveStarContribs cfg bucket).foldl (fun c p => addContrib p.2 c p.1) []

/-- `five_star_participant_entries`: how many qualifying records each
participant entered. -/
def five_star_participant_entries (cfg : FairConfig) (bucket : List J) :
    List (JAtom × Nat) :=
  (fiveStarContribs cfg bucket).foldl (fun c p => addContrib 1 c p.1) []

/-- `extract_winner`: name and id, each an `or`-chain over the `winner`
sub-object and the top-level fields. -/
def extract_winner (entry : J) : Option J × Option J :=
  let w := orEmptyObj (jget entry "winner")
  (orTruthy (jget w "winnerName") (orTruthy (jget entry "winnerName") (jget w "name")),
    orTruthy (jget w "winnerId") (orTruthy (jget entry "winnerId") (jget w "id")))

/-- `normalize_winner`: prefer a truthy name (dropping `"nobody"` and excluded
names), else a truthy id (dropping excluded ids), else `None`. -/
def normalize_winner (cfg : FairConfig) (name uid : Option J) : Option String :=
  if truthyOpt name then
    let nv := (pyStr ((name.getD J.null))).trim
    if nv.toLower = "nobody" then none
    else if nv.toLower ∈ cfg.excludedNames then none
    else some nv
  else if truthyOpt uid then
    let uv := (pyStr ((uid.getD J.null))).trim
    if uv ∈ cfg.excludedIds then none else some uv
  else none

/-- The normalized winner key of one entry. -/
def winnerKeyOf (cfg : FairConfig) (e : J) : Option String :=
  normalize_winner cfg (extract_winner e).1 (extract_winner e).2

/-- The winner keys counted by the 5★ winner counter, in bucket order: the
guard `if stars == 5 and winner_key:` keeps a key only when the entry is 5★
and the normalized key is truthy — neither `None` nor the empty string (a
winner name of `" "` normalizes to `""` and is skipped). -/
def fiveStarWinnerKeys (cfg : FairConfig) (bucket : List J) : List String :=
  bucket.filterMap (fun e =>
    match winnerKeyOf cfg e with
    | some k => if entryStars e = some 5 ∧ k ≠ "" then some k else none
    | none => none)

/-- `five_star_winner_counts`: wins per normalized winner key. -/
def five_star_winner_counts (cfg : FairConfig) (bucket : List J) :
    List (String × Nat) :=
  (fiveStarWinnerKeys cfg bucket).foldl (fun c k => cincr c k 1) []

/-- `actual_double_winners`: the exact tally of winners with at least two 5★
wins. -/
def actual_double_winners (cfg : FairConfig) (bucket : List J) : Nat :=
  ((five_star_winner_counts cfg bucket).filter (fun p => decide (2 ≤ p.2))).length

/-- The per-participant Poisson term `1 - exp(-λ) * (1 + λ)` (`math.exp`
modelled by the real exponential). -/
noncomputable def termExp (l : ℚ) : ℝ :=
  1 - Real.exp (-(l : ℝ)) * (1 + (l : ℝ))

/-- `expected_double_winners`: the summed Poisson terms over all accumulated
rates. -/
noncomputable def expected_double_winners (cfg : FairConfig) (bucket : List J) : ℝ :=
  ((five_star_lambda cfg bucket).map (fun p => termExp p.2)).sum

/-- Keep the first occurrence of every element (insertion order of the
counters' keys). -/
def firstDedupAux {α : Type} [DecidableEq α] (seen : List α) : List α → List α
  | [] => []
  | a :: as =>
    if a ∈ seen then firstDedupAux seen as
    else a :: firstDedupAux (a :: seen) as

/-- First-occurrence deduplication. -/
def firstDedup {α : Type} [DecidableEq α] (l : List α) : List α :=
  firstDedupAux [] l

/-- All keys touched by a list of contributions, with multiplicity. -/
def allKeys {α β : Type} (contribs : List (List α × β)) : List α :=
  contribs.foldr (fun p acc => p.1 ++ acc) []

/-- The total weight a key receives from a list of contributions. -/
def wsum {α β : Type} [DecidableEq α] [AddMonoid β]
    (contribs : List (List α × β)) (k : α) : β :=
  ((contribs.filter (fun p => decide (k ∈ p.1))).map Prod.snd).sum

/-- Fold a whole contribution list into a counter, starting empty. -/
def counterFold {α β : Type} [DecidableEq α] [Add β]
    (contribs : List (List α × β)) : List (α × β) :=
  contribs.foldl (fun c p => addContrib p.2 c p.1) []

/-- Modelled from the spec: `λ_i`, the sum over the 5★ records whose distinct
participant set contains `i` of `1 /` (number of distinct participants of that
record). -/
def specLambda (cfg : FairConfig) (bucket : List J) (pid : JAtom) : ℚ :=
  ((bucket.filter (fun e => decide (entryStars e = some 5) &&
      decide (pid ∈ uniqOf cfg e))).map
    (fun e => 1 / ((uniqOf cfg e).length : ℚ))).sum

/-- Modelled from the spec: the participants of the qualifying 5★ records
(each once, in first-appearance order). -/
def specParticipants (cfg : FairConfig) (bucket : List J) : List JAtom :=
  firstDedup (allKeys (fiveStarContribs cfg bucket))

/-- Modelled from the spec: how many of the 5★ records a given normalized
winner won. -/
def specWins (cfg : FairConfig) (bucket : List J) (w : String) : Nat :=
  (bucket.filter (fun e => decide (entryStars e = some 5) &&
    decide (winnerKeyOf cfg e = some w))).length

/-- Modelled from the spec: the exact number of distinct non-excluded winners
(with a truthy normalized key) holding at least two 5★ wins. -/
def specActualDouble (cfg : FairConfig) (bucket : List J) : Nat :=
  ((firstDedup (fiveStarWinnerKeys cfg bucket)).filter
    (fun w => decide (2 ≤ specWins cfg bucket w))).length

/-- The number of distinct 5★ participants carrying an accumulated rate. -/
def numFiveStarParticipants (cfg : FairConfig) (bucket : List J) : Nat :=
  (five_star_lambda cfg bucket).length

/-! ## Synthetic strata for the fairness-estimator test properties -/

/-- A 5★ record with a single participant id `i` and nobody else. -/
def singletonEntry (i : Nat) : J :=
  J.jobj [("raffle", J.jobj [("stickerStars", J.jint 5),
    ("participantIds", J.jlist [JAtom.aint i])])]

/-- `n` single-entrant 5★ records with pairwise distinct participants. -/
def uniBucket (n : Nat) : List J :=
  (List.range n).map singletonEntry

/-- A 5★ record entered by the two participants `0` and `1`. -/
def pairEntry : J :=
  J.jobj [("raffle", J.jobj [("stickerStars", J.jint 5),
    ("participantIds", J.jlist [JAtom.aint 0, JAtom.aint 1])])]

/-- `n` copies of the two-entrant record: participant `0` enters `n` records
of 2 distinct entrants each. -/
def pairBucket (n : Nat) : List J :=
  List.replicate n pairEntry

/-- The empty exclusion configuration. -/
def noExcl : FairConfig :=
  ⟨[], []⟩

/-- Association-list lookup (`counter.get(key)`), for reading counters. -/
def clookup {α β : Type} [DecidableEq α] (c : List (α × β)) (k : α) : Option β :=
  (c.find? (fun p => decide (p.1 = k))).map Prod.snd

/-! ## Concrete fixtures used by counterexamples and witnesses -/

/-- An observation with a winner name and a participant count. -/
def obsFull : J :=
  J.jobj [("winner", J.jobj [("winnerName", J.jstr "alice")]),
    ("raffle", J.jobj [("participantCount", J.jint 4)])]

/-- An observation with neither winner nor participant signal. -/
def obsBare : J :=
  J.jobj [("raffle", J.jobj [("stickerName", J.jstr "Pig")])]

/-- A record whose nested star value is the out-of-range integer 7. -/
def starSeven : J :=
  J.jobj [("raffle", J.jobj [("stickerStars", J.jint 7)])]

/-- A record whose nested star value is the string `"4"`. -/
def starStrFour : J :=
  J.jobj [("raffle", J.jobj [("stickerStars", J.jstr "4")])]

/-- A record with an explicit `participantCount` of 8 and a 5-element
`participantIds` list. -/
def countEightIdsFive : J :=
  J.jobj [("raffle", J.jobj [("participantCount", J.jint 8),
    ("participantIds", J.jlist [JAtom.aint 1, JAtom.aint 2, JAtom.aint 3,
      JAtom.aint 4, JAtom.aint 5])])]

/-- The script's default audit configuration: `--stars 5`, `--min-count 5`,
`--iqr-mult 1.5`, `--five-star-rel 0.25`. -/
def cfgDefault : AuditConfig :=
  ⟨some [5], 5, 3 / 2, 1 / 4⟩

/-- An ended, settled 3★ row whose explicit count (8) disagrees with its
id-list length (5). -/
def row3Mismatch : Row :=
  ⟨"t3_a", "2025-01-01", some 3, "Pig", true, true, some 8, some 5⟩

/-- An ended, settled 5★ row with the same count/id-list disagreement. -/
def row5Mismatch : Row :=
  ⟨"t3_b", "2025-01-02", some 5, "Cow", true, true, some 8, some 5⟩

/-- An ended, settled 5★ row with a participant count of 1. -/
def row5Low : Row :=
  ⟨"t3_c", "2025-01-03", some 5, "Hen", true, true, some 1, some 1⟩

/-! ## General lemmas about the embedded primitives -/

theorem tuple4Gt_self (s : Nat × Nat × Nat × Nat) : tuple4Gt s s = false := by
  simp [tuple4Gt]

theorem mem_insertLe {α : Type} (le : α → α → Bool) (a x : α) (l : List α) :
    x ∈ insertLe le a l ↔ x = a ∨ x ∈ l := by
  induction l with
  | nil => simp [insertLe]
  | cons b bs ih =>
    by_cases h : le a b = true
    · simp [insertLe, h]
    · simp only [insertLe, h, Bool.false_eq_true, if_false, List.mem_cons, ih]
      tauto

theorem mem_sortBy {α : Type} (le : α → α → Bool) (x : α) (l : List α) :
    x ∈ sortBy le l ↔ x ∈ l := by
  induction l with
  | nil => simp [sortBy]
  | cons b bs ih => simp [sortBy, mem_insertLe, ih]

theorem length_insertLe {α : Type} (le : α → α → Bool) (a : α) (l : List α) :
    (insertLe le a l).length = l.length + 1 := by
  induction l with
  | nil => simp [insertLe]
  | cons b bs ih =>
    by_cases h : le a b = true
    · simp [insertLe, h]
    · simp [insertLe, h, ih]

theorem length_sortBy {α : Type} (le : α → α → Bool) (l : List α) :
    (sortBy le l).length = l.length := by
  induction l with
  | nil => rfl
  | cons b bs ih => simp [sortBy, length_insertLe, ih]

theorem length_qsortAsc (l : List ℚ) : (qsortAsc l).length = l.length :=
  length_sortBy _ l

theorem foldl_max_spec (as : List ℚ) : ∀ a : ℚ,
    (as.foldl max a = a ∨ as.foldl max a ∈ as) ∧
      a ≤ as.foldl max a ∧ ∀ t ∈ as, t ≤ as.foldl max a := by
  induction as with
  | nil => intro a; simp
  | cons b bs ih =>
    intro a
    have h := ih (max a b)
    have hfold : (b :: bs).foldl max a = bs.foldl max (max a b) := rfl
    refine ⟨?_, ?_, ?_⟩
    · rcases h.1 with h1 | h1
      · rcases max_choice a b with hm | hm
        · left; rw [hfold, h1]; exact hm
        · right; rw [hfold, h1, hm]; exact List.mem_cons_self b bs
      · right; rw [hfold]; exact List.mem_cons_of_mem b h1
    · rw [hfold]; exact le_trans (le_max_left a b) h.2.1
    · intro t ht
      rw [hfold]
      rcases List.mem_cons.mp ht with rfl | ht
      · exact le_trans (le_max_right a t) h.2.1
      · exact h.2.2 t ht

theorem max?_spec (l : List ℚ) (m : ℚ) (h : l.max? = some m) :
    m ∈ l ∧ ∀ t ∈ l, t ≤ m := by
  cases l with
  | nil => simp [List.max?] at h
  | cons a as =>
    have hm : as.foldl max a = m := by simpa [List.max?] using h
    have hs := foldl_max_spec as a
    subst hm
    refine ⟨?_, ?_⟩
    · rcases hs.1 with h1 | h1
      · rw [h1]; exact List.mem_cons_self a as
      · exact List.mem_cons_of_mem a h1
    · intro t ht
      rcases List.mem_cons.mp ht with rfl | ht
      · exact hs.2.1
      · exact hs.2.2 t ht

/-! ## Claim theorems -/

/-- C8: the distribution-statistics computations applied to the empty sample
return the explicit no-data result for every statistic — count 0 and an
explicit absent value for min, p10, p25, median, p75, p90, max and IQR
(`compute_stats`), resp. only `n = 0` with every other statistic absent
(`stats_from_values`, for any rounding) — never a zero in place of a
statistic; totality of the definitions models freedom from exceptions. -/
theorem compute_stats_empty_no_data :
    compute_stats [] = ⟨0, none, none, none, none, none, none, none, none⟩ ∧
      ∀ rnd : ℚ → ℚ, stats_from_values rnd [] = ⟨0, none, none, none, none, none⟩ :=
  ⟨rfl, fun _ => rfl⟩

/-- C1 counterexample: the reconciler of `verify_participant_counts.main`
(lines 339–344) is a plain first-seen dedup with no completeness comparison —
offering the bare observation (neither winner nor participant signal) before
the complete one (both bits set) retains the bare one, although the complete
one scores strictly higher; so the retained observation is not the more
complete one regardless of order in that cited reconciler. -/
theorem firstseen_keeps_first_cex :
    firstSeenRecords [("t3_x", obsBare), ("t3_x", obsFull)] =
        [("t3_x", obsBare)] ∧
      (score_entry obsFull).1 = 1 ∧ (score_entry obsFull).2.1 = 1 ∧
      (score_entry obsBare).1 = 0 ∧ (score_entry obsBare).2.1 = 0 ∧
      tuple4Gt (score_entry obsFull) (score_entry obsBare) = true :=
  ⟨rfl, rfl, rfl, rfl, rfl, rfl⟩

/-- C1 amended: in the score-based reconcilers (`add_entry` of
`stats_by_user.py`, `consider` of `export_reverify_list.py`), offering two
observations of one identifier where `a` has the winner bit and the
participant-signal bit set and `b` has neither retains `a` in both offer
orders, and equal scores retain the first-offered observation (both orders);
the dedup of `verify_participant_counts.main` instead always retains the
first-seen observation for an identifier, regardless of completeness. -/
theorem reconcile_keeps_more_complete (a b : J) (pid : String)
    (ha1 : (score_entry a).1 = 1) (ha2 : (score_entry a).2.1 = 1)
    (hb1 : (score_entry b).1 = 0) (hb2 : (score_entry b).2.1 = 0) :
    reconcile [a, b] = some a ∧ reconcile [b, a] = some a ∧
      (∀ x y : J, score_entry x = score_entry y →
        reconcile [x, y] = some x ∧ reconcile [y, x] = some y) ∧
      ∀ x y : J, firstSeenRecords [(pid, x), (pid, y)] = [(pid, x)] := by
  refine ⟨?_, ?_, ?_, ?_⟩
  · have hgt : tuple4Gt (score_entry b) (score_entry a) = false := by
      simp [tuple4Gt, ha1, hb1]
    simp [reconcile, reconcileStep, hgt]
  · have hgt : tuple4Gt (score_entry a) (score_entry b) = true := by
      simp [tuple4Gt, ha1, hb1]
    simp [reconcile, reconcileStep, hgt]
  · intro x y hxy
    constructor
    · have hgt : tuple4Gt (score_entry y) (score_entry x) = false := by
        rw [hxy]; exact tuple4Gt_self _
      simp [reconcile, reconcileStep, hgt]
    · have hgt : tuple4Gt (score_entry x) (score_entry y) = false := by
        rw [hxy]; exact tuple4Gt_self _
      simp [reconcile, reconcileStep, hgt]
  · intro x y
    simp [firstSeenRecords, firstSeenAux]

/-- Witness for C1 (amended) at concrete observations: the score-based
reconcilers keep `obsFull` (winner + count) over `obsBare` (neither) in both
orders, while the first-seen dedup keeps `obsBare` when it is offered first. -/
theorem reconcile_keeps_more_complete_witness :
    reconcile [obsFull, obsBare] = some obsFull ∧
      reconcile [obsBare, obsFull] = some obsFull ∧
      firstSeenRecords [("t3_x", obsBare), ("t3_x", obsFull)] =
        [("t3_x", obsBare)] := by
  have h := reconcile_keeps_more_complete obsFull obsBare "t3_x" rfl rfl rfl rfl
  exact ⟨h.1, h.2.1, h.2.2.2 obsBare obsFull⟩

/-- C6 counterexample: in the audit scripts' `get_star`
(`verify_participant_counts.py`, `stats_by_user.py`, `export_reverify_list.py`)
an out-of-range star value is returned as is — star 7 yields `some 7`, not the
unknown sentinel the claim requires for values outside 1–5. -/
theorem get_star_out_of_range_cex :
    get_star_audit starSeven = some 7 ∧ ¬ ((7 : Int) ≤ 5) :=
  ⟨rfl, by decide⟩

/-- C6 amended: the normalized star rating is the integer coercion of the
nested field with top-level fallback; on coercion failure every `get_star`
returns the unknown sentinel (never zero); the 1–5 range check is applied by
`raffle_dash.get_star` only, while the audit scripts return the coerced value
unchanged even outside 1–5. -/
theorem get_star_characterization (r : J) (n : Int) :
    (pyToInt? (starRaw r) = none →
      get_star_audit r = none ∧ get_star_dash r = none) ∧
      (pyToInt? (starRaw r) = some n →
        get_star_audit r = some n ∧
          get_star_dash r = if 1 ≤ n ∧ n ≤ 5 then some n else none) := by
  constructor
  · intro h
    simp [get_star_audit, get_star_dash, h]
  · intro h
    simp [get_star_audit, get_star_dash, h]

/-- Witness for C6 (amended) at a record whose nested star is the string
`"4"`: coercion succeeds with 4 and both extractors agree. -/
theorem get_star_characterization_witness :
    get_star_audit starStrFour = some 4 ∧ get_star_dash starStrFour = some 4 := by
  have hc : pyToInt? (starRaw starStrFour) = some 4 := rfl
  have h := (get_star_characterization starStrFour 4).2 hc
  refine ⟨h.1, ?_⟩
  rw [h.2]
  norm_num

/-- C7 counterexample: on a record with `participantCount = 8` and a 5-element
id list, `raffle_dash.get_participant_info` returns the id-list length 5 — it
prefers the list over the explicit count, contradicting the claimed priority —
while the audit scripts return the explicit count 8. -/
theorem participant_count_priority_cex :
    (get_participant_info_dash countEightIdsFive).1 = some 5 ∧
      (get_participant_info_audit countEightIdsFive).1 = some 8 ∧
      (5 : Int) ≠ 8 :=
  ⟨rfl, rfl, by decide⟩

/-- C7 amended: the audit scripts (`verify_participant_counts.py`,
`export_reverify_list.py`, `stats_by_user.py`) prefer the coerced explicit
count with the id-list length as fallback, whereas `raffle_dash.py` prefers
the id-list length, consulting the explicit count only when no id list is
present; in all of them the result is absent — never zero — exactly when both
signals are missing. -/
theorem participant_count_extraction (r : J) (n l : Int) :
    ((get_participant_info_audit r).1 = none ↔
        pyToInt? (nestedCountRaw r) = none ∧ idsLenOf r = none) ∧
      get_participant_count_user r = (get_participant_info_audit r).1 ∧
      (pyToInt? (nestedCountRaw r) = some n →
        (get_participant_info_audit r).1 = some n) ∧
      (idsLenOf r = some l → (get_participant_info_dash r).1 = some l) ∧
      ((get_participant_info_dash r).1 = none ↔
        pyToInt? (nestedCountRaw r) = none ∧ idsLenOf r = none) := by
  refine ⟨?_, rfl, ?_, ?_, ?_⟩
  · cases h : pyToInt? (nestedCountRaw r) with
    | none => simp [get_participant_info_audit, h]
    | some m => simp [get_participant_info_audit, h]
  · intro h
    simp [get_participant_info_audit, h]
  · intro h
    rcases hd : raffleData r with _ | d
    · simp [idsLenOf, idsOf, hd] at h
    · rcases hi : jget d "participantIds" with _ | v
      · simp [idsLenOf, idsOf, hd, hi] at h
      · cases v with
        | jlist xs =>
          have hx : (xs.length : Int) = l := by
            simpa [idsLenOf, idsOf, hd, hi] using h
          simp [get_participant_info_dash, hd, hi, hx]
        | null => simp [idsLenOf, idsOf, hd, hi] at h
        | jbool b => simp [idsLenOf, idsOf, hd, hi] at h
        | jint m => simp [idsLenOf, idsOf, hd, hi] at h
        | jfloat q => simp [idsLenOf, idsOf, hd, hi] at h
        | jstr s => simp [idsLenOf, idsOf, hd, hi] at h
        | jobj fs => simp [idsLenOf, idsOf, hd, hi] at h
  · rcases hd : raffleData r with _ | d
    · simp [get_participant_info_dash, nestedCountRaw, idsLenOf, idsOf, hd, pyToInt?]
    · rcases hi : jget d "participantIds" with _ | v
      · cases hc : pyToInt? (jget d "participantCount") with
        | none =>
          simp [get_participant_info_dash, nestedCountRaw, idsLenOf, idsOf, hd, hi, hc]
        | some m =>
          simp [get_participant_info_dash, nestedCountRaw, idsLenOf, idsOf, hd, hi, hc]
      · cases v with
        | jlist xs =>
          simp [get_participant_info_dash, nestedCountRaw, idsLenOf, idsOf, hd, hi]
        | null =>
          cases hc : pyToInt? (jget d "participantCount") with
          | none =>
            simp [get_participant_info_dash, nestedCountRaw, idsLenOf, idsOf, hd, hi, hc]
          | some m =>
            simp [get_participant_info_dash, nestedCountRaw, idsLenOf, idsOf, hd, hi, hc]
        | jbool b =>
          cases hc : pyToInt? (jget d "participantCount") with
          | none =>
            simp [get_participant_info_dash, nestedCountRaw, idsLenOf, idsOf, hd, hi, hc]
          | some m =>
            simp [get_participant_info_dash, nestedCountRaw, idsLenOf, idsOf, hd, hi, hc]
        | jint m =>
          cases hc : pyToInt? (jget d "participantCount") with
          | none =>
            simp [get_participant_info_dash, nestedCountRaw, idsLenOf, idsOf, hd, hi, hc]
          | some m2 =>
            simp [get_participant_info_dash, nestedCountRaw, idsLenOf, idsOf, hd, hi, hc]
        | jfloat q =>
          cases hc : pyToInt? (jget d "participantCount") with
          | none =>
            simp [get_participant_info_dash, nestedCountRaw, idsLenOf, idsOf, hd, hi, hc]
          | some m =>
            simp [get_participant_info_dash, nestedCountRaw, idsLenOf, idsOf, hd, hi, hc]
        | jstr s =>
          cases hc : pyToInt? (jget d "participantCount") with
          | none =>
            simp [get_participant_info_dash, nestedCountRaw, idsLenOf, idsOf, hd, hi, hc]
          | some m =>
            simp [get_participant_info_dash, nestedCountRaw, idsLenOf, idsOf, hd, hi, hc]
        | jobj fs =>
          cases hc : pyToInt? (jget d "participantCount") with
          | none =>
            simp [get_participant_info_dash, nestedCountRaw, idsLenOf, idsOf, hd, hi, hc]
          | some m =>
            simp [get_participant_info_dash, nestedCountRaw, idsLenOf, idsOf, hd, hi, hc]

/-- Witness for C7 (amended) at `countEightIdsFive`: the audit extraction
yields the explicit count 8, the dashboard extraction the list length 5. -/
theorem participant_count_extraction_witness :
    (get_participant_info_audit countEightIdsFive).1 = some 8 ∧
      (get_participant_info_dash countEightIdsFive).1 = some 5 := by
  have h := participant_count_extraction countEightIdsFive 8 5
  exact ⟨h.2.2.1 rfl, h.2.2.2.1 rfl⟩

/-- C3 counterexample: an ended, settled 3★ record with explicit count 8 and
id-list length 5 is not flagged as a mismatch under the script's default
configuration (`--stars 5`): the mismatch check is gated by the star filter,
so the flagging is not independent of the record's star rating. -/
theorem mismatch_star_filter_cex :
    row3Mismatch.participantCount = some 8 ∧
      row3Mismatch.participantIdsLength = some 5 ∧
      row3Mismatch.ended = true ∧ row3Mismatch.settled = true ∧
      auditMismatches cfgDefault [row3Mismatch] = [] :=
  ⟨rfl, rfl, rfl, rfl, rfl⟩

/-- C3 amended: every ended, settled record that passes the configured star
filter and whose explicit participant count disagrees with its id-list length
is flagged as a mismatch; and the mismatch report is independent of the
threshold configuration (absolute minimum, IQR multiplier, top-rating
fraction) — two configurations with the same star filter produce the same
mismatch list. -/
theorem mismatch_flagged_iff_filter (cfg : AuditConfig) (rows : List Row)
    (r : Row) (l c : Int) (hmem : r ∈ rows)
    (hf : passStarFilter cfg r = true) (he : r.ended = true)
    (hs : r.settled = true) (hl : r.participantIdsLength = some l)
    (hc : r.participantCount = some c) (hne : l ≠ c) :
    r ∈ auditMismatches cfg rows ∧
      ∀ cfg' : AuditConfig, cfg'.starFilter = cfg.starFilter →
        auditMismatches cfg' rows = auditMismatches cfg rows := by
  constructor
  · rw [auditMismatches, mem_sortBy]
    exact List.mem_filter.mpr ⟨hmem, by simp [mismatchFlag, hf, he, hs, hl, hc, hne]⟩
  · intro cfg' hsf
    unfold auditMismatches
    have hfl : rows.filter (mismatchFlag cfg') = rows.filter (mismatchFlag cfg) := by
      apply List.filter_congr
      intro x _
      unfold mismatchFlag passStarFilter
      rw [hsf]
    rw [hfl]

/-- Witness for C3 (amended): the 5★ mismatch row is flagged under the
default configuration. -/
theorem mismatch_flagged_iff_filter_witness :
    row5Mismatch ∈ auditMismatches cfgDefault [row5Mismatch] := by
  have h := mismatch_flagged_iff_filter cfgDefault [row5Mismatch] row5Mismatch
    5 8 (by simp) (by decide) rfl rfl rfl rfl (by decide)
  exact h.1

theorem percentile_isSome (l : List ℚ) (pct : ℚ) (h : l ≠ []) :
    (percentile l pct).isSome := by
  unfold percentile
  rw [if_neg h]
  dsimp only
  split
  · rfl
  · split
    · rfl
    · rfl

/-- C2: for every ended, settled record passing the star filter with a known
participant count, the effective low-outlier threshold of its (necessarily
non-empty) stratum is a positive candidate threshold that dominates every
positive candidate — the maximum of the positive candidates, non-positive
candidates excluded — and the record is flagged as a low outlier precisely
when its count is strictly below that threshold.  For the non-empty stratum
sample all four candidate statistics (p10, p25, median, IQR) are present. -/
theorem low_outlier_threshold_spec (cfg : AuditConfig) (rows : List Row)
    (r : Row) (c : Int) (m : ℚ) (hmem : r ∈ rows)
    (hf : passStarFilter cfg r = true) (he : r.ended = true)
    (hs : r.settled = true) (hc : r.participantCount = some c)
    (hm : effectiveThreshold cfg r.stars
      (compute_stats (sampleFor rows r.stars)) = some m) :
    (0 < m ∧
        m ∈ candidateThresholds cfg r.stars
          (compute_stats (sampleFor rows r.stars))) ∧
      (∀ t ∈ candidateThresholds cfg r.stars
          (compute_stats (sampleFor rows r.stars)), 0 < t → t ≤ m) ∧
      ((compute_stats (sampleFor rows r.stars)).p10.isSome ∧
        (compute_stats (sampleFor rows r.stars)).p25.isSome ∧
        (compute_stats (sampleFor rows r.stars)).median.isSome ∧
        (compute_stats (sampleFor rows r.stars)).iqr.isSome) ∧
      (r ∈ auditLowOutliers cfg rows ↔ (c : ℚ) < m) := by
  have hcmem : (c : ℚ) ∈ sampleFor rows r.stars := by
    apply List.mem_filterMap.mpr
    refine ⟨r, hmem, ?_⟩
    simp [he, hs, hc]
  have hsmp : sampleFor rows r.stars ≠ [] := List.ne_nil_of_mem hcmem
  have hsort : qsortAsc (sampleFor rows r.stars) ≠ [] := by
    intro hq
    have := length_qsortAsc (sampleFor rows r.stars)
    rw [hq] at this
    exact hsmp (List.eq_nil_of_length_eq_zero this.symm)
  have hmax := max?_spec _ m hm
  have hmem_f := List.mem_filter.mp hmax.1
  refine ⟨⟨by simpa using hmem_f.2, hmem_f.1⟩, ?_, ?_, ?_⟩
  · intro t ht hpos
    exact hmax.2 t (List.mem_filter.mpr ⟨ht, by simpa using hpos⟩)
  · constructor
    · rw [compute_stats, if_neg hsmp]
      exact percentile_isSome _ _ hsort
    constructor
    · rw [compute_stats, if_neg hsmp]
      exact percentile_isSome _ _ hsort
    constructor
    · rw [compute_stats, if_neg hsmp]
      exact percentile_isSome _ _ hsort
    · rw [compute_stats, if_neg hsmp]
      dsimp only
      obtain ⟨a, ha⟩ := Option.isSome_iff_exists.mp
        (percentile_isSome (qsortAsc (sampleFor rows r.stars)) 25 hsort)
      obtain ⟨b, hb⟩ := Option.isSome_iff_exists.mp
        (percentile_isSome (qsortAsc (sampleFor rows r.stars)) 75 hsort)
      rw [ha, hb]
      rfl
  · have hflag : lowFlag cfg rows r = decide ((c : ℚ) < m) := by
      simp only [lowFlag, hf, he, hs, hc, Bool.true_and]
      rw [if_neg hsmp, hm]
    rw [auditLowOutliers, mem_sortBy, List.mem_filter, hflag]
    simp [hmem]

/-- Witness for C2: with the default configuration and a single ended,
settled 5★ row of count 1, the effective threshold is 5 and the row is
flagged. -/
theorem low_outlier_threshold_spec_witness :
    row5Low ∈ auditLowOutliers cfgDefault [row5Low] := by
  have hsample : sampleFor [row5Low] row5Low.stars = [(1 : ℚ)] := by
    norm_num [sampleFor, row5Low, List.filterMap]
  have hstats : compute_stats [(1 : ℚ)] =
      ⟨1, some 1, some 1, some 1, some 1, some 1, some 1, some 1, some 0⟩ := by
    norm_num [compute_stats, percentile, qsortAsc, sortBy, insertLe]
  have heff : effectiveThreshold cfgDefault row5Low.stars
      (compute_stats (sampleFor [row5Low] row5Low.stars)) = some 5 := by
    rw [hsample, hstats]
    have hcand : candidateThresholds cfgDefault row5Low.stars
        ⟨1, some 1, some 1, some 1, some 1, some 1, some 1, some 1, some 0⟩ =
        [5, 1 / 2, 1, 1 / 4] := by
      norm_num [candidateThresholds, cfgDefault, row5Low]
    rw [effectiveThreshold, hcand]
    have hfilt : List.filter (fun t => decide ((0 : ℚ) < t)) [5, 1 / 2, 1, 1 / 4] =
        [5, 1 / 2, 1, 1 / 4] := by
      norm_num [List.filter]
    rw [maxPos, hfilt]
    simp only [List.max?, List.foldl]
    rw [max_eq_left (by norm_num), max_eq_left (by norm_num),
      max_eq_left (by norm_num)]
  have h := low_outlier_threshold_spec cfgDefault [row5Low] row5Low 1 5
    (by simp) (by decide) rfl rfl rfl heff
  exact h.2.2.2.mpr (by norm_num)

/-- C9: for every non-empty sample, of even or odd length, `percentile(S, 50)`
equals the conventional median — the middle element of the sorted sample for
odd length, the mean of the two middle elements for even length. -/
theorem percentile_50_eq_median (S : List ℚ) (h : S ≠ []) :
    percentile S 50 = some (medianRef S) := by
  simp only [percentile, medianRef, if_neg h]
  set s := qsortAsc S with hsdef
  by_cases h1 : s.length = 1
  · rw [if_pos h1, h1]
    norm_num
  · rw [if_neg h1]
    have hn0 : s.length ≠ 0 := by
      intro h0
      apply h
      have hl := length_qsortAsc S
      rw [← hsdef, h0] at hl
      exact List.eq_nil_of_length_eq_zero hl.symm
    have hn : 2 ≤ s.length := by omega
    rcases Nat.even_or_odd s.length with ⟨m, hm⟩ | ⟨m, hm⟩
    · -- even length: s.length = m + m with 1 ≤ m
      have hm1 : 1 ≤ m := by omega
      have hmq : (1 : ℚ) ≤ (m : ℚ) := by exact_mod_cast hm1
      have hk : ((s.length : ℚ) - 1) * (50 / 100) = (m : ℚ) - 1 / 2 := by
        rw [hm]; push_cast; ring
      rw [hk]
      have hf : pyTruncQ ((m : ℚ) - 1 / 2) = (m : ℤ) - 1 := by
        unfold pyTruncQ
        rw [if_pos (by linarith)]
        rw [Int.floor_eq_iff]
        constructor
        · push_cast; linarith
        · push_cast; linarith
      rw [hf]
      have hc : min ((m : ℤ) - 1 + 1) ((s.length : ℤ) - 1) = (m : ℤ) := by
        rw [hm]; push_cast; omega
      rw [hc]
      rw [if_neg (by omega : ¬ ((m : ℤ) - 1 = (m : ℤ)))]
      rw [show ((m : ℤ) - 1).toNat = m - 1 by omega]
      rw [show ((m : ℤ)).toNat = m by omega]
      rw [if_neg (by omega : ¬ (s.length % 2 = 1))]
      rw [show s.length / 2 = m by omega]
      congr 1
      push_cast
      ring
    · -- odd length: s.length = 2 * m + 1 with 1 ≤ m
      have hm1 : 1 ≤ m := by omega
      have hk : ((s.length : ℚ) - 1) * (50 / 100) = (m : ℚ) := by
        rw [hm]; push_cast; ring
      rw [hk]
      have hf : pyTruncQ ((m : ℚ)) = (m : ℤ) := by
        unfold pyTruncQ
        rw [if_pos (by positivity)]
        exact_mod_cast Int.floor_intCast (m : ℤ)
      rw [hf]
      have hc : min ((m : ℤ) + 1) ((s.length : ℤ) - 1) = (m : ℤ) + 1 := by
        rw [hm]; push_cast; omega
      rw [hc]
      rw [if_neg (by omega : ¬ ((m : ℤ) = (m : ℤ) + 1))]
      rw [show ((m : ℤ)).toNat = m by omega]
      rw [show ((m : ℤ) + 1).toNat = m + 1 by omega]
      rw [if_pos (by omega : s.length % 2 = 1)]
      rw [show s.length / 2 = m by omega]
      congr 1
      push_cast
      ring

/-- Witness for C9 at an even-length and an odd-length concrete sample. -/
theorem percentile_50_eq_median_witness :
    percentile [3, 1, 2, 4] 50 = some (medianRef [3, 1, 2, 4]) ∧
      percentile [3, 1, 2] 50 = some (medianRef [3, 1, 2]) ∧
      medianRef [3, 1, 2, 4] = 5 / 2 ∧ medianRef [3, 1, 2] = 2 := by
  refine ⟨percentile_50_eq_median [3, 1, 2, 4] (by simp),
    percentile_50_eq_median [3, 1, 2] (by simp), ?_, ?_⟩
  · norm_num [medianRef, qsortAsc, sortBy, insertLe]
  · norm_num [medianRef, qsortAsc, sortBy, insertLe]

/-! ## Counter lemmas: an insertion-ordered counter fold equals its
canonical association list -/

section CounterLemmas

variable {α β : Type} [DecidableEq α]

theorem mem_firstDedupAux (x : α) (l : List α) : ∀ seen : List α,
    x ∈ firstDedupAux seen l ↔ x ∈ l ∧ x ∉ seen := by
  induction l with
  | nil => intro seen; simp [firstDedupAux]
  | cons a as ih =>
    intro seen
    by_cases ha : a ∈ seen
    · rw [firstDedupAux, if_pos ha, ih]
      constructor
      · rintro ⟨hx, hn⟩
        exact ⟨List.mem_cons_of_mem a hx, hn⟩
      · rintro ⟨hx, hn⟩
        rcases List.mem_cons.mp hx with rfl | hx
        · exact absurd ha hn
        · exact ⟨hx, hn⟩
    · rw [firstDedupAux, if_neg ha]
      constructor
      · intro hx
        rcases List.mem_cons.mp hx with rfl | hx
        · exact ⟨List.mem_cons_self _ _, ha⟩
        · have := (ih (a :: seen)).mp hx
          refine ⟨List.mem_cons_of_mem a this.1, fun hs => this.2 (List.mem_cons_of_mem a hs)⟩
      · rintro ⟨hx, hn⟩
        rcases List.mem_cons.mp hx with rfl | hx
        · exact List.mem_cons_self x _
        · by_cases hxa : x = a
          · subst hxa; exact List.mem_cons_self x _
          · exact List.mem_cons_of_mem a ((ih (a :: seen)).mpr
              ⟨hx, by simp [hxa, hn]⟩)

theorem mem_firstDedup (x : α) (l : List α) : x ∈ firstDedup l ↔ x ∈ l := by
  rw [firstDedup, mem_firstDedupAux]
  simp

theorem nodup_firstDedupAux (l : List α) : ∀ seen : List α,
    (firstDedupAux seen l).Nodup := by
  induction l with
  | nil => intro seen; simp [firstDedupAux]
  | cons a as ih =>
    intro seen
    by_cases ha : a ∈ seen
    · rw [firstDedupAux, if_pos ha]; exact ih seen
    · rw [firstDedupAux, if_neg ha]
      refine List.Nodup.cons ?_ (ih (a :: seen))
      intro hmem
      exact ((mem_firstDedupAux a as (a :: seen)).mp hmem).2 (List.mem_cons_self a seen)

theorem nodup_firstDedup (l : List α) : (firstDedup l).Nodup :=
  nodup_firstDedupAux l []

theorem firstDedupAux_of_nodup (l : List α) (h : l.Nodup) : ∀ seen : List α,
    firstDedupAux seen l = l.filter (fun y => decide (y ∉ seen)) := by
  induction l with
  | nil => intro seen; simp [firstDedupAux]
  | cons a as ih =>
    intro seen
    have hna : a ∉ as := (List.nodup_cons.mp h).1
    have has : as.Nodup := (List.nodup_cons.mp h).2
    by_cases ha : a ∈ seen
    · rw [firstDedupAux, if_pos ha, ih has seen, List.filter_cons]
      simp [ha]
    · rw [firstDedupAux, if_neg ha, ih has (a :: seen), List.filter_cons,
        if_pos (by simpa using ha)]
      congr 1
      apply List.filter_congr
      intro y hy
      have hya : y ≠ a := fun heq => hna (heq ▸ hy)
      simp [hya]

theorem firstDedupAux_append (xs ys : List α) (hys : ys.Nodup) :
    ∀ seen : List α, firstDedupAux seen (xs ++ ys) =
      firstDedupAux seen xs ++ ys.filter (fun y => decide (y ∉ seen ∧ y ∉ xs)) := by
  induction xs with
  | nil =>
    intro seen
    rw [List.nil_append, firstDedupAux, firstDedupAux_of_nodup ys hys seen]
    simp only [List.nil_append]
    apply List.filter_congr
    intro y hy
    simp
  | cons a as ih =>
    intro seen
    by_cases ha : a ∈ seen
    · rw [List.cons_append, firstDedupAux, if_pos ha, ih seen, firstDedupAux, if_pos ha]
      congr 1
      apply List.filter_congr
      intro y hy
      rw [decide_eq_decide]
      constructor
      · rintro ⟨h1, h2⟩
        refine ⟨h1, fun hm => ?_⟩
        rcases List.mem_cons.mp hm with rfl | hm
        · exact h1 ha
        · exact h2 hm
      · rintro ⟨h1, h2⟩
        exact ⟨h1, fun hm => h2 (List.mem_cons_of_mem a hm)⟩
    · rw [List.cons_append, firstDedupAux, if_neg ha, ih (a :: seen),
        firstDedupAux, if_neg ha, List.cons_append]
      congr 2
      apply List.filter_congr
      intro y hy
      rw [decide_eq_decide]
      constructor
      · rintro ⟨h1, h2⟩
        refine ⟨fun hm => h1 (List.mem_cons_of_mem a hm), fun hm => ?_⟩
        rcases List.mem_cons.mp hm with rfl | hm
        · exact h1 (List.mem_cons_self y seen)
        · exact h2 hm
      · rintro ⟨h1, h2⟩
        refine ⟨fun hm => ?_, fun hm => h2 (List.mem_cons_of_mem a hm)⟩
        rcases List.mem_cons.mp hm with rfl | hm
        · exact h2 (List.mem_cons_self y as)
        · exact h1 hm

theorem firstDedup_append (xs ys : List α) (hys : ys.Nodup) :
    firstDedup (xs ++ ys) =
      firstDedup xs ++ ys.filter (fun y => decide (y ∉ xs)) := by
  rw [firstDedup, firstDedupAux_append xs ys hys, firstDedup]
  congr 1
  apply List.filter_congr
  intro y hy
  simp

theorem cincr_map_of_mem [Add β] (keys : List α) (val : α → β) (k : α) (w : β)
    (hk : k ∈ keys) (hnd : keys.Nodup) :
    cincr (keys.map (fun x => (x, val x))) k w =
      keys.map (fun x => (x, if x = k then val x + w else val x)) := by
  induction keys with
  | nil => cases hk
  | cons a as ih =>
    have hna : a ∉ as := (List.nodup_cons.mp hnd).1
    have has : as.Nodup := (List.nodup_cons.mp hnd).2
    rcases List.mem_cons.mp hk with rfl | hk
    · rw [List.map_cons, cincr, if_pos rfl, List.map_cons, if_pos rfl]
      congr 1
      apply List.map_congr_left
      intro x hx
      have hxk : x ≠ k := fun hc => hna (hc ▸ hx)
      simp [hxk]
    · have hak : ¬ (k = a) := fun hc => hna (hc ▸ hk)
      rw [List.map_cons, cincr, if_neg hak, List.map_cons, ih hk has,
        if_neg (fun hc => hak hc.symm)]

theorem cincr_map_of_not_mem [Add β] (keys : List α) (val : α → β) (k : α)
    (w : β) (hk : k ∉ keys) :
    cincr (keys.map (fun x => (x, val x))) k w =
      keys.map (fun x => (x, val x)) ++ [(k, w)] := by
  induction keys with
  | nil => rfl
  | cons a as ih =>
    have hka : ¬ (k = a) := fun hc => hk (hc ▸ List.mem_cons_self a as)
    have hkas : k ∉ as := fun hm => hk (List.mem_cons_of_mem a hm)
    rw [List.map_cons, cincr, if_neg hka, ih hkas]
    rfl

theorem addContrib_cons [Add β] (w : β) (c : List (α × β)) (u : α)
    (us : List α) :
    addContrib w c (u :: us) = addContrib w (cincr c u w) us :=
  rfl

theorem addContrib_map [Add β] (w : β) : ∀ (us keys : List α) (val : α → β),
    us.Nodup → keys.Nodup →
    addContrib w (keys.map (fun x => (x, val x))) us =
      (keys ++ us.filter (fun u => decide (u ∉ keys))).map
        (fun x => (x, if x ∈ keys then (if x ∈ us then val x + w else val x) else w)) := by
  intro us
  induction us with
  | nil =>
    intro keys val _ _
    rw [addContrib, List.foldl_nil, List.filter_nil, List.append_nil]
    apply List.map_congr_left
    intro x hx
    simp [hx]
  | cons u us' ih =>
    intro keys val hus hkeys
    have hun : u ∉ us' := (List.nodup_cons.mp hus).1
    have hu' : us'.Nodup := (List.nodup_cons.mp hus).2
    rw [addContrib_cons]
    by_cases hu : u ∈ keys
    · rw [cincr_map_of_mem keys val u w hu hkeys,
        ih keys (fun x => if x = u then val x + w else val x) hu' hkeys]
      have hfil : (u :: us').filter (fun z => decide (z ∉ keys)) =
          us'.filter (fun z => decide (z ∉ keys)) := by
        rw [List.filter_cons]
        simp [hu]
      rw [hfil]
      apply List.map_congr_left
      intro x hx
      rcases List.mem_append.mp hx with hxk | hxf
      · by_cases hxu : x = u
        · subst hxu
          simp [hxk, hun]
        · simp [hxk, hxu, List.mem_cons]
      · have hxk : x ∉ keys := by simpa using List.of_mem_filter hxf
        simp [hxk]
    · rw [cincr_map_of_not_mem keys val u w hu]
      have hrw : keys.map (fun x => (x, val x)) ++ [(u, w)] =
          (keys ++ [u]).map (fun x => (x, if x = u then w else val x)) := by
        rw [List.map_append]
        congr 1
        · apply List.map_congr_left
          intro x hx
          have hxu : x ≠ u := fun hc => hu (hc ▸ hx)
          simp [hxu]
        · simp
      have hnd2 : (keys ++ [u]).Nodup := by
        refine List.Nodup.append hkeys (List.nodup_singleton u) ?_
        intro a hak hau
        rcases List.mem_singleton.mp hau with rfl
        exact hu hak
      rw [hrw, ih (keys ++ [u]) (fun x => if x = u then w else val x) hu' hnd2]
      have hfil2 : us'.filter (fun z => decide (z ∉ keys ++ [u])) =
          us'.filter (fun z => decide (z ∉ keys)) := by
        apply List.filter_congr
        intro z hz
        have hzu : z ≠ u := fun hc => hun (hc ▸ hz)
        rw [decide_eq_decide]
        simp [List.mem_append, hzu]
      have hfil3 : (u :: us').filter (fun z => decide (z ∉ keys)) =
          u :: us'.filter (fun z => decide (z ∉ keys)) := by
        rw [List.filter_cons]
        simp [hu]
      rw [hfil2, hfil3]
      have hassoc : (keys ++ [u]) ++ us'.filter (fun z => decide (z ∉ keys)) =
          keys ++ (u :: us'.filter (fun z => decide (z ∉ keys))) := by
        rw [List.append_assoc]
        rfl
      rw [hassoc]
      apply List.map_congr_left
      intro x hx
      rcases List.mem_append.mp hx with hxk | hxc
      · have hxu : x ≠ u := fun hc => hu (hc ▸ hxk)
        simp [hxk, hxu, List.mem_append, List.mem_cons]
      · rcases List.mem_cons.mp hxc with rfl | hxf
        · simp [hu, hun, List.mem_append]
        · have hxk : x ∉ keys := by simpa using List.of_mem_filter hxf
          have hxu : x ≠ u := fun hc => hun (hc ▸ List.mem_of_mem_filter hxf)
          simp [hxk, hxu, List.mem_append]

theorem allKeys_cons (p : List α × β) (l : List (List α × β)) :
    allKeys (p :: l) = p.1 ++ allKeys l :=
  rfl

theorem allKeys_append (xs ys : List (List α × β)) :
    allKeys (xs ++ ys) = allKeys xs ++ allKeys ys := by
  induction xs with
  | nil => rfl
  | cons p ps ih => rw [List.cons_append, allKeys_cons, allKeys_cons, ih, List.append_assoc]

theorem mem_allKeys (x : α) (l : List (List α × β)) :
    x ∈ allKeys l ↔ ∃ p ∈ l, x ∈ p.1 := by
  induction l with
  | nil => simp [allKeys]
  | cons p ps ih =>
    rw [allKeys_cons, List.mem_append, ih]
    simp

theorem wsum_append [AddMonoid β] (xs ys : List (List α × β)) (k : α) :
    wsum (xs ++ ys) k = wsum xs k + wsum ys k := by
  rw [wsum, wsum, wsum, List.filter_append, List.map_append, List.sum_append]

theorem wsum_single [AddMonoid β] (p : List α × β) (k : α) :
    wsum [p] k = if k ∈ p.1 then p.2 else 0 := by
  by_cases hk : k ∈ p.1
  · simp [wsum, hk]
  · simp [wsum, hk]

theorem wsum_eq_zero [AddMonoid β] (l : List (List α × β)) (k : α)
    (h : k ∉ allKeys l) : wsum l k = 0 := by
  rw [wsum]
  have : l.filter (fun p => decide (k ∈ p.1)) = [] := by
    rw [List.filter_eq_nil_iff]
    intro p hp
    simp only [decide_eq_true_eq]
    intro hkp
    exact h ((mem_allKeys k l).mpr ⟨p, hp, hkp⟩)
  rw [this]
  rfl

theorem counterFold_append_single [DecidableEq α] [Add β]
    (L : List (List α × β)) (p : List α × β) :
    counterFold (L ++ [p]) = addContrib p.2 (counterFold L) p.1 := by
  rw [counterFold, counterFold, List.foldl_append]
  rfl

theorem counterFold_eq [AddMonoid β] (contribs : List (List α × β))
    (h : ∀ p ∈ contribs, p.1.Nodup) :
    counterFold contribs =
      (firstDedup (allKeys contribs)).map (fun k => (k, wsum contribs k)) := by
  induction contribs using List.reverseRecOn with
  | nil => rfl
  | append_singleton L p ih =>
    have hL : ∀ q ∈ L, q.1.Nodup := fun q hq => h q (List.mem_append_left _ hq)
    have hp : p.1.Nodup := h p (List.mem_append_right _ (List.mem_singleton_self p))
    rw [counterFold_append_single, ih hL,
      addContrib_map p.2 p.1 (firstDedup (allKeys L)) (fun k => wsum L k) hp
        (nodup_firstDedup _)]
    rw [allKeys_append, allKeys_cons,
      show (allKeys ([] : List (List α × β))) = [] from rfl, List.append_nil,
      firstDedup_append (allKeys L) p.1 hp]
    have hfil : p.1.filter (fun y => decide (y ∉ allKeys L)) =
        p.1.filter (fun y => decide (y ∉ firstDedup (allKeys L))) := by
      apply List.filter_congr
      intro y hy
      rw [decide_eq_decide]
      rw [mem_firstDedup]
    rw [← hfil]
    apply List.map_congr_left
    intro x hx
    have hw : wsum (L ++ [p]) x = wsum L x + (if x ∈ p.1 then p.2 else 0) := by
      rw [wsum_append, wsum_single]
    rcases List.mem_append.mp hx with hxk | hxf
    · have hxk' : x ∈ firstDedup (allKeys L) := hxk
      by_cases hxp : x ∈ p.1
      · simp [hxk', hxp, hw]
      · simp [hxk', hxp, hw]
    · have hxp : x ∈ p.1 := List.mem_of_mem_filter hxf
      have hxa : x ∉ allKeys L := by simpa using List.of_mem_filter hxf
      have hxk' : x ∉ firstDedup (allKeys L) := by
        rw [mem_firstDedup]; exact hxa
      simp [hxk', hxp, hw, wsum_eq_zero L x hxa]

theorem wsum_cons {α β : Type} [DecidableEq α] [AddMonoid β]
    (p : List α × β) (L : List (List α × β)) (k : α) :
    wsum (p :: L) k = (if k ∈ p.1 then p.2 else 0) + wsum L k := by
  rw [show p :: L = [p] ++ L from rfl, wsum_append, wsum_single]

end CounterLemmas

/-! ## Fairness estimator: the fold agrees with the specification formulas -/

theorem uniqOf_nodup (cfg : FairConfig) (e : J) : (uniqOf cfg e).Nodup := by
  cases h : entryIds e with
  | none => simp [uniqOf, h]
  | some xs => simp [uniqOf, h, List.nodup_dedup]

theorem fiveStarContribs_shape (cfg : FairConfig) (bucket : List J)
    (p : List JAtom × ℚ) (hp : p ∈ fiveStarContribs cfg bucket) :
    ∃ e ∈ bucket, entryStars e = some 5 ∧ uniqOf cfg e ≠ [] ∧
      p = (uniqOf cfg e, 1 / ((uniqOf cfg e).length : ℚ)) := by
  obtain ⟨e, he, hfe⟩ := List.mem_filterMap.mp hp
  rcases h1 : entryIds e with _ | xs
  · rw [h1] at hfe
    cases hfe
  · rw [h1] at hfe
    by_cases h2 : entryStars e = some 5 ∧ uniqOf cfg e ≠ []
    · rw [if_pos h2] at hfe
      exact ⟨e, he, h2.1, h2.2, (Option.some_injective _ hfe).symm⟩
    · rw [if_neg h2] at hfe
      cases hfe

theorem fiveStarContribs_nodup (cfg : FairConfig) (bucket : List J) :
    ∀ p ∈ fiveStarContribs cfg bucket, p.1.Nodup := by
  intro p hp
  obtain ⟨e, _, _, _, rfl⟩ := fiveStarContribs_shape cfg bucket p hp
  exact uniqOf_nodup cfg e

theorem fiveStarContribs_weight_pos (cfg : FairConfig) (bucket : List J) :
    ∀ p ∈ fiveStarContribs cfg bucket, 0 < p.2 := by
  intro p hp
  obtain ⟨e, _, _, hne, rfl⟩ := fiveStarContribs_shape cfg bucket p hp
  have hlen : 0 < (uniqOf cfg e).length := List.length_pos.mpr hne
  have : (0 : ℚ) < ((uniqOf cfg e).length : ℚ) := by exact_mod_cast hlen
  positivity

theorem specLambda_cons (cfg : FairConfig) (e : J) (rest : List J) (pid : JAtom) :
    specLambda cfg (e :: rest) pid =
      (if entryStars e = some 5 ∧ pid ∈ uniqOf cfg e
       then 1 / ((uniqOf cfg e).length : ℚ) else 0) + specLambda cfg rest pid := by
  rw [specLambda, List.filter_cons]
  by_cases h : entryStars e = some 5 ∧ pid ∈ uniqOf cfg e
  · rw [if_pos (by simp [h.1, h.2]), List.map_cons, List.sum_cons, if_pos h]
    rfl
  · have hb : ¬ ((decide (entryStars e = some 5) &&
        decide (pid ∈ uniqOf cfg e)) = true) := by
      simp only [Bool.and_eq_true, decide_eq_true_eq]
      exact fun hc => h ⟨hc.1, hc.2⟩
    rw [if_neg hb, if_neg h, zero_add]
    rfl

theorem wsum_fiveStar (cfg : FairConfig) (bucket : List J) (pid : JAtom) :
    wsum (fiveStarContribs cfg bucket) pid = specLambda cfg bucket pid := by
  induction bucket with
  | nil => rfl
  | cons e rest ih =>
    rw [specLambda_cons]
    rcases h1 : entryIds e with _ | xs
    · have hu : uniqOf cfg e = [] := by simp [uniqOf, h1]
      have hc : fiveStarContribs cfg (e :: rest) = fiveStarContribs cfg rest := by
        rw [fiveStarContribs, fiveStarContribs, List.filterMap_cons, h1]
      rw [hc, ih, hu]
      simp
    · by_cases h2 : entryStars e = some 5 ∧ uniqOf cfg e ≠ []
      · have hc : fiveStarContribs cfg (e :: rest) =
            (uniqOf cfg e, 1 / ((uniqOf cfg e).length : ℚ)) ::
              fiveStarContribs cfg rest := by
          rw [fiveStarContribs, fiveStarContribs, List.filterMap_cons, h1, if_pos h2]
        rw [hc, wsum_cons, ih]
        congr 1
        by_cases h3 : pid ∈ uniqOf cfg e
        · rw [if_pos h3, if_pos ⟨h2.1, h3⟩]
        · rw [if_neg h3, if_neg (fun hc2 => h3 hc2.2)]
      · have hc : fiveStarContribs cfg (e :: rest) = fiveStarContribs cfg rest := by
          rw [fiveStarContribs, fiveStarContribs, List.filterMap_cons, h1, if_neg h2]
        rw [hc, ih]
        have hn : ¬ (entryStars e = some 5 ∧ pid ∈ uniqOf cfg e) := by
          rintro ⟨ha, hb⟩
          exact h2 ⟨ha, List.ne_nil_of_mem hb⟩
        rw [if_neg hn, zero_add]

theorem five_star_lambda_eq (cfg : FairConfig) (bucket : List J) :
    five_star_lambda cfg bucket =
      (specParticipants cfg bucket).map
        (fun pid => (pid, specLambda cfg bucket pid)) := by
  rw [show five_star_lambda cfg bucket = counterFold (fiveStarContribs cfg bucket)
      from rfl,
    counterFold_eq (fiveStarContribs cfg bucket) (fiveStarContribs_nodup cfg bucket),
    specParticipants]
  apply List.map_congr_left
  intro pid _
  rw [wsum_fiveStar]

theorem allKeys_singletons {α : Type} [DecidableEq α] (ks : List α) :
    allKeys (ks.map (fun k => ([k], (1 : Nat)))) = ks := by
  induction ks with
  | nil => rfl
  | cons a as iha =>
    rw [List.map_cons, allKeys_cons, iha]
    rfl

theorem wsum_singletons {α : Type} [DecidableEq α] (k : α) (l : List α) :
    wsum (l.map (fun x => ([x], (1 : Nat)))) k = l.count k := by
  induction l with
  | nil => rfl
  | cons a as iha =>
    rw [List.map_cons, wsum_cons, iha, List.count_cons]
    by_cases hak : k = a
    · subst hak
      rw [if_pos (List.mem_singleton_self k), if_pos (by simp), Nat.add_comm]
    · have hne1 : ¬ (k ∈ ([a] : List α)) := by simp [hak]
      have hne2 : ¬ ((a == k) = true) := by
        simp only [beq_iff_eq]
        exact fun h => hak h.symm
      rw [if_neg hne1, if_neg hne2, Nat.zero_add, Nat.add_zero]

theorem countfold_eq_counts {α : Type} [DecidableEq α] (ks : List α) :
    ks.foldl (fun c k => cincr c k 1) ([] : List (α × Nat)) =
      (firstDedup ks).map (fun k => (k, ks.count k)) := by
  have h1 : ks.foldl (fun c k => cincr c k 1) ([] : List (α × Nat)) =
      counterFold (ks.map (fun k => ([k], (1 : Nat)))) := by
    rw [counterFold, List.foldl_map]
    rfl
  have hnd : ∀ p ∈ ks.map (fun k => ([k], (1 : Nat))), p.1.Nodup := by
    intro p hp
    obtain ⟨k, _, rfl⟩ := List.mem_map.mp hp
    exact List.nodup_singleton k
  rw [h1, counterFold_eq _ hnd, allKeys_singletons]
  apply List.map_congr_left
  intro k _
  rw [wsum_singletons]

theorem fiveStarWinnerKeys_ne_empty (cfg : FairConfig) (bucket : List J) :
    ∀ w ∈ fiveStarWinnerKeys cfg bucket, w ≠ "" := by
  intro w hwmem
  obtain ⟨e, _, hfe⟩ := List.mem_filterMap.mp hwmem
  rcases h2 : winnerKeyOf cfg e with _ | k
  · rw [h2] at hfe
    cases hfe
  · rw [h2] at hfe
    have hfe2 : (if entryStars e = some 5 ∧ k ≠ "" then some k else none) =
        some w := hfe
    by_cases hc : entryStars e = some 5 ∧ k ≠ ""
    · rw [if_pos hc] at hfe2
      obtain rfl : k = w := Option.some_injective _ hfe2
      exact hc.2
    · rw [if_neg hc] at hfe2
      cases hfe2

theorem count_winnerKeys (cfg : FairConfig) (bucket : List J) (w : String)
    (hw : w ≠ "") :
    (fiveStarWinnerKeys cfg bucket).count w = specWins cfg bucket w := by
  induction bucket with
  | nil => rfl
  | cons e rest ih =>
    rcases h2 : winnerKeyOf cfg e with _ | k
    · have hk : fiveStarWinnerKeys cfg (e :: rest) = fiveStarWinnerKeys cfg rest := by
        simp [fiveStarWinnerKeys, List.filterMap_cons, h2]
      have hs : specWins cfg (e :: rest) w = specWins cfg rest w := by
        simp [specWins, List.filter_cons, h2]
      rw [hk, hs, ih]
    · by_cases h1 : entryStars e = some 5
      · by_cases hke : k = ""
        · subst hke
          have hk : fiveStarWinnerKeys cfg (e :: rest) =
              fiveStarWinnerKeys cfg rest := by
            simp [fiveStarWinnerKeys, List.filterMap_cons, h2]
          have hs : specWins cfg (e :: rest) w = specWins cfg rest w := by
            simp [specWins, List.filter_cons, h2, Ne.symm hw]
          rw [hk, hs, ih]
        · have hk : fiveStarWinnerKeys cfg (e :: rest) =
              k :: fiveStarWinnerKeys cfg rest := by
            simp [fiveStarWinnerKeys, List.filterMap_cons, h1, h2, hke]
          by_cases h3 : k = w
          · have hs : specWins cfg (e :: rest) w = specWins cfg rest w + 1 := by
              simp [specWins, List.filter_cons, h1, h2, h3]
            rw [hk, List.count_cons, ih, hs]
            simp [h3]
          · have hs : specWins cfg (e :: rest) w = specWins cfg rest w := by
              simp [specWins, List.filter_cons, h1, h2, h3]
            rw [hk, List.count_cons, ih, hs]
            simp [h3]
      · have hk : fiveStarWinnerKeys cfg (e :: rest) = fiveStarWinnerKeys cfg rest := by
          simp [fiveStarWinnerKeys, List.filterMap_cons, h1, h2]
        have hs : specWins cfg (e :: rest) w = specWins cfg rest w := by
          simp [specWins, List.filter_cons, h1]
        rw [hk, hs, ih]

theorem actual_double_winners_eq (cfg : FairConfig) (bucket : List J) :
    actual_double_winners cfg bucket = specActualDouble cfg bucket := by
  rw [actual_double_winners,
    show five_star_winner_counts cfg bucket =
      (fiveStarWinnerKeys cfg bucket).foldl (fun c k => cincr c k 1) [] from rfl,
    countfold_eq_counts, specActualDouble, List.filter_map, List.length_map]
  congr 1
  apply List.filter_congr
  intro w hwmem
  have hw : w ≠ "" :=
    fiveStarWinnerKeys_ne_empty cfg bucket w ((mem_firstDedup w _).mp hwmem)
  rw [Function.comp_apply, decide_eq_decide, count_winnerKeys cfg bucket w hw]

/-- C4: the fairness estimator's expected double-winner count equals the sum
over all 5★ participants `i` of `1 − exp(−λ_i)·(1 + λ_i)`, where `λ_i` is the
sum over the 5★ records whose distinct participant set contains `i` of one
over the number of distinct participants of that record; and the reported
actual double-winner count equals the exact number of distinct non-excluded
winners (truthy normalized keys only) with at least two 5★ wins, with no
approximation. -/
theorem fairness_estimator_exact (cfg : FairConfig) (bucket : List J) :
    expected_double_winners cfg bucket =
      ((specParticipants cfg bucket).map
        (fun pid => termExp (specLambda cfg bucket pid))).sum ∧
      actual_double_winners cfg bucket = specActualDouble cfg bucket := by
  constructor
  · rw [expected_double_winners, five_star_lambda_eq, List.map_map]
    rfl
  · exact actual_double_winners_eq cfg bucket

theorem termExp_nonneg (q : ℚ) (h : 0 ≤ q) : 0 ≤ termExp q := by
  have hq : (0 : ℝ) ≤ (q : ℝ) := by exact_mod_cast h
  rw [termExp, Real.exp_neg]
  have h3 : (0 : ℝ) < Real.exp (q : ℝ) := Real.exp_pos _
  have h1 : (q : ℝ) + 1 ≤ Real.exp (q : ℝ) := Real.add_one_le_exp _
  have h4 : (Real.exp (q : ℝ))⁻¹ * (1 + (q : ℝ)) ≤ 1 := by
    rw [inv_mul_eq_div, div_le_one h3]
    linarith
  linarith

theorem termExp_lt_one (q : ℚ) (h : 0 ≤ q) : termExp q < 1 := by
  have hq : (0 : ℝ) ≤ (q : ℝ) := by exact_mod_cast h
  rw [termExp, Real.exp_neg]
  have h3 : (0 : ℝ) < (Real.exp (q : ℝ))⁻¹ := inv_pos.mpr (Real.exp_pos _)
  have h5 : (0 : ℝ) < 1 + (q : ℝ) := by linarith
  nlinarith

theorem termExp_pos (q : ℚ) (h : 0 < q) : 0 < termExp q := by
  have hq : (0 : ℝ) < (q : ℝ) := by exact_mod_cast h
  rw [termExp, Real.exp_neg]
  have h3 : (0 : ℝ) < Real.exp (q : ℝ) := Real.exp_pos _
  have h1 : (q : ℝ) + 1 < Real.exp (q : ℝ) := Real.add_one_lt_exp (ne_of_gt hq)
  have h4 : (Real.exp (q : ℝ))⁻¹ * (1 + (q : ℝ)) < 1 := by
    rw [inv_mul_eq_div, div_lt_one h3]
    linarith
  linarith

theorem five_star_lambda_pos (cfg : FairConfig) (bucket : List J) :
    ∀ p ∈ five_star_lambda cfg bucket, 0 < p.2 := by
  intro p hp
  rw [five_star_lambda_eq] at hp
  obtain ⟨pid, hpid, rfl⟩ := List.mem_map.mp hp
  show 0 < specLambda cfg bucket pid
  rw [← wsum_fiveStar]
  rw [specParticipants] at hpid
  have hall : pid ∈ allKeys (fiveStarContribs cfg bucket) :=
    (mem_firstDedup pid _).mp hpid
  obtain ⟨pp, hpp, hpidpp⟩ := (mem_allKeys pid _).mp hall
  rw [wsum]
  apply List.sum_pos
  · intro x hx
    obtain ⟨q, hq, rfl⟩ := List.mem_map.mp hx
    exact fiveStarContribs_weight_pos cfg bucket q (List.mem_of_mem_filter hq)
  · have hmm : pp.2 ∈ (List.filter (fun r => decide (pid ∈ r.1))
        (fiveStarContribs cfg bucket)).map Prod.snd :=
      List.mem_map_of_mem _ (List.mem_filter.mpr ⟨hpp, by simpa using hpidpp⟩)
    exact List.ne_nil_of_mem hmm

theorem list_sum_le_length (l : List ℝ) (h1 : ∀ x ∈ l, x ≤ 1) :
    l.sum ≤ (l.length : ℝ) := by
  induction l with
  | nil => simp
  | cons a as ih =>
    rw [List.sum_cons, List.length_cons]
    have ha := h1 a (List.mem_cons_self a as)
    have hih := ih (fun x hx => h1 x (List.mem_cons_of_mem a hx))
    push_cast
    linarith

theorem list_sum_lt_length (l : List ℝ) (h0 : ∀ x ∈ l, 0 ≤ x)
    (h1 : ∀ x ∈ l, x < 1) (hne : l ≠ []) : l.sum < (l.length : ℝ) := by
  induction l with
  | nil => exact absurd rfl hne
  | cons a as ih =>
    rw [List.sum_cons, List.length_cons]
    have ha := h1 a (List.mem_cons_self a as)
    by_cases hn : as = []
    · subst hn
      simp only [List.sum_nil, List.length_nil, List.length_cons]
      push_cast
      linarith
    · have hih := ih (fun x hx => h0 x (List.mem_cons_of_mem a hx))
        (fun x hx => h1 x (List.mem_cons_of_mem a hx)) hn
      push_cast
      push_cast at hih
      linarith

/-- C10 counterexample: for the empty bucket the expected double-winner count
is 0 while N (the number of distinct 5★ participants with a recorded rate) is
0, and 0 does not lie in the half-open interval [0, 0) — the claimed interval
is empty whenever no 5★ participant exists. -/
theorem expected_double_winners_range_cex :
    expected_double_winners noExcl [] = 0 ∧
      numFiveStarParticipants noExcl [] = 0 ∧
      ¬ expected_double_winners noExcl [] ∈
        Set.Ico (0 : ℝ) ((numFiveStarParticipants noExcl [] : ℕ) : ℝ) := by
  have h0 : expected_double_winners noExcl [] = 0 := by
    rw [expected_double_winners]
    rfl
  have h2 : numFiveStarParticipants noExcl [] = 0 := rfl
  refine ⟨h0, h2, ?_⟩
  rw [h0, h2]
  simp [Set.mem_Ico]

/-- C10 amended: for every input bucket the expected double-winner count lies
in the closed interval [0, N], and is strictly below N whenever N is positive,
where N is the number of distinct 5★ participants with a recorded rate (for
N = 0 the value is exactly 0, so the claimed half-open interval [0, N) must be
weakened at that boundary); moreover every accumulated rate is strictly
positive and for every rate λ ≥ 0 the per-participant term lies in [0, 1). -/
theorem expected_double_winners_range (cfg : FairConfig) (bucket : List J) :
    0 ≤ expected_double_winners cfg bucket ∧
      expected_double_winners cfg bucket ≤
        (numFiveStarParticipants cfg bucket : ℝ) ∧
      (0 < numFiveStarParticipants cfg bucket →
        expected_double_winners cfg bucket <
          (numFiveStarParticipants cfg bucket : ℝ)) ∧
      (∀ p ∈ five_star_lambda cfg bucket, 0 < p.2) ∧
      ∀ q : ℚ, 0 ≤ q → 0 ≤ termExp q ∧ termExp q < 1 := by
  have hpos := five_star_lambda_pos cfg bucket
  have hlen : ((five_star_lambda cfg bucket).map (fun p => termExp p.2)).length =
      numFiveStarParticipants cfg bucket := by
    rw [List.length_map, numFiveStarParticipants]
  have hterm0 : ∀ x ∈ (five_star_lambda cfg bucket).map (fun p => termExp p.2),
      0 ≤ x := by
    intro x hx
    obtain ⟨p, hp, rfl⟩ := List.mem_map.mp hx
    exact le_of_lt (termExp_pos p.2 (hpos p hp))
  have hterm1 : ∀ x ∈ (five_star_lambda cfg bucket).map (fun p => termExp p.2),
      x < 1 := by
    intro x hx
    obtain ⟨p, hp, rfl⟩ := List.mem_map.mp hx
    exact termExp_lt_one p.2 (le_of_lt (hpos p hp))
  refine ⟨?_, ?_, ?_, hpos,
    fun q hq => ⟨termExp_nonneg q hq, termExp_lt_one q hq⟩⟩
  · rw [expected_double_winners]
    exact List.sum_nonneg hterm0
  · rw [expected_double_winners, ← hlen]
    exact list_sum_le_length _ (fun x hx => le_of_lt (hterm1 x hx))
  · intro hN
    rw [expected_double_winners, ← hlen]
    apply list_sum_lt_length _ hterm0 hterm1
    intro hnil
    rw [hnil] at hlen
    simp only [List.length_nil] at hlen
    omega

/-- Witness for C10 (amended) at a one-record bucket: N = 1 and the expected
count is strictly below 1; the term at λ = 0 is non-negative. -/
theorem expected_double_winners_range_witness :
    0 < numFiveStarParticipants noExcl (uniBucket 1) ∧
      expected_double_winners noExcl (uniBucket 1) <
        (numFiveStarParticipants noExcl (uniBucket 1) : ℝ) ∧
      0 ≤ termExp 0 :=
  ⟨by decide,
    (expected_double_winners_range noExcl (uniBucket 1)).2.2.1 (by decide),
    ((expected_double_winners_range noExcl (uniBucket 1)).2.2.2.2 0 le_rfl).1⟩

theorem cincr_append_of_forall_ne {α β : Type} [DecidableEq α] [Add β] :
    ∀ (c : List (α × β)) (k : α) (v : β), (∀ p ∈ c, p.1 ≠ k) →
      cincr c k v = c ++ [(k, v)] := by
  intro c
  induction c with
  | nil => intro k v _; rfl
  | cons p ps ih =>
    rcases p with ⟨k', v'⟩
    intro k v h
    have hk : ¬ (k = k') := by
      intro hc
      exact h (k', v') (List.mem_cons_self _ _) (by rw [hc])
    rw [cincr, if_neg hk, ih k v (fun q hq => h q (List.mem_cons_of_mem _ hq)),
      List.cons_append]

theorem lambda_uniBucket (n : Nat) :
    five_star_lambda noExcl (uniBucket n) =
      (List.range n).map (fun i : ℕ => (JAtom.aint (i : Int), (1 : ℚ))) := by
  induction n with
  | zero => rfl
  | succ k ih =>
    have hb : uniBucket (k + 1) = uniBucket k ++ [singletonEntry k] := by
      rw [uniBucket, uniBucket, List.range_succ, List.map_append]
      rfl
    have hcontribs : fiveStarContribs noExcl (uniBucket (k + 1)) =
        fiveStarContribs noExcl (uniBucket k) ++
          [([JAtom.aint k], 1 / ((1 : ℕ) : ℚ))] := by
      rw [hb, fiveStarContribs, fiveStarContribs, List.filterMap_append]
      rfl
    rw [show five_star_lambda noExcl (uniBucket (k + 1)) =
        counterFold (fiveStarContribs noExcl (uniBucket (k + 1))) from rfl,
      hcontribs, counterFold_append_single,
      show counterFold (fiveStarContribs noExcl (uniBucket k)) =
        five_star_lambda noExcl (uniBucket k) from rfl, ih]
    have hne : ∀ p ∈ (List.range k).map (fun i : ℕ => (JAtom.aint (i : Int), (1 : ℚ))),
        p.1 ≠ JAtom.aint (k : Int) := by
      intro p hp
      obtain ⟨i, hi, rfl⟩ := List.mem_map.mp hp
      have hik : i < k := List.mem_range.mp hi
      intro hc
      have hik2 : (i : Int) = (k : Int) := by injection hc
      omega
    rw [show addContrib (([JAtom.aint (k : Int)], 1 / ((1 : ℕ) : ℚ)).2)
        ((List.range k).map (fun i : ℕ => (JAtom.aint (i : Int), (1 : ℚ))))
        (([JAtom.aint (k : Int)], 1 / ((1 : ℕ) : ℚ)).1) =
      cincr ((List.range k).map (fun i : ℕ => (JAtom.aint (i : Int), (1 : ℚ))))
        (JAtom.aint (k : Int)) (1 / ((1 : ℕ) : ℚ)) from rfl,
      cincr_append_of_forall_ne _ _ _ hne, List.range_succ, List.map_append]
    norm_num

theorem lambda_pairBucket (n : Nat) :
    five_star_lambda noExcl (pairBucket n) =
      if n = 0 then []
      else [(JAtom.aint 0, (n : ℚ) / 2), (JAtom.aint 1, (n : ℚ) / 2)] := by
  induction n with
  | zero => rfl
  | succ k ih =>
    have hb : pairBucket (k + 1) = pairBucket k ++ [pairEntry] := by
      rw [pairBucket, pairBucket, List.replicate_succ']
    have hcontribs : fiveStarContribs noExcl (pairBucket (k + 1)) =
        fiveStarContribs noExcl (pairBucket k) ++
          [([JAtom.aint 0, JAtom.aint 1], 1 / ((2 : ℕ) : ℚ))] := by
      rw [hb, fiveStarContribs, fiveStarContribs, List.filterMap_append]
      rfl
    rw [show five_star_lambda noExcl (pairBucket (k + 1)) =
        counterFold (fiveStarContribs noExcl (pairBucket (k + 1))) from rfl,
      hcontribs, counterFold_append_single,
      show counterFold (fiveStarContribs noExcl (pairBucket k)) =
        five_star_lambda noExcl (pairBucket k) from rfl, ih]
    have hne10 : JAtom.aint 1 ≠ JAtom.aint 0 := by decide
    have hne01 : JAtom.aint 0 ≠ JAtom.aint 1 := by decide
    by_cases hk : k = 0
    · subst hk
      rw [if_pos rfl, if_neg (Nat.succ_ne_zero 0)]
      show cincr (cincr ([] : List (JAtom × ℚ)) (JAtom.aint 0) (1 / ((2 : ℕ) : ℚ)))
        (JAtom.aint 1) (1 / ((2 : ℕ) : ℚ)) = _
      rw [show cincr ([] : List (JAtom × ℚ)) (JAtom.aint 0) (1 / ((2 : ℕ) : ℚ)) =
          [(JAtom.aint 0, 1 / ((2 : ℕ) : ℚ))] from rfl,
        cincr, if_neg hne10,
        show cincr ([] : List (JAtom × ℚ)) (JAtom.aint 1) (1 / ((2 : ℕ) : ℚ)) =
          [(JAtom.aint 1, 1 / ((2 : ℕ) : ℚ))] from rfl]
      norm_num
    · rw [if_neg hk, if_neg (Nat.succ_ne_zero k)]
      show cincr (cincr [(JAtom.aint 0, (k : ℚ) / 2), (JAtom.aint 1, (k : ℚ) / 2)]
          (JAtom.aint 0) (1 / ((2 : ℕ) : ℚ)))
        (JAtom.aint 1) (1 / ((2 : ℕ) : ℚ)) = _
      rw [cincr, if_pos rfl, cincr, if_neg hne10, cincr, if_pos rfl]
      have hval : (k : ℚ) / 2 + 1 / ((2 : ℕ) : ℚ) = ((k + 1 : ℕ) : ℚ) / 2 := by
        push_cast
        ring
      rw [hval]

theorem map_const_sum (c : ℝ) (l : List ℕ) :
    (l.map (fun _ => c)).sum = (l.length : ℝ) * c := by
  induction l with
  | nil => simp
  | cons a as ih =>
    rw [List.map_cons, List.sum_cons, ih, List.length_cons]
    push_cast
    ring

theorem exp_uniBucket (n : Nat) :
    expected_double_winners noExcl (uniBucket n) = (n : ℝ) * termExp 1 := by
  rw [expected_double_winners, lambda_uniBucket, List.map_map]
  rw [show ((fun p : JAtom × ℚ => termExp p.2) ∘
      (fun i : ℕ => (JAtom.aint (i : Int), (1 : ℚ)))) = (fun _ : ℕ => termExp 1)
      from rfl]
  rw [map_const_sum, List.length_range]

theorem termExp_one_gt : (264 : ℝ) / 1000 < termExp 1 := by
  have hgt := Real.exp_one_gt_d9
  have hpos : (0 : ℝ) < Real.exp 1 := Real.exp_pos 1
  have hcast : ((1 : ℚ) : ℝ) = 1 := by norm_num
  rw [termExp, hcast, Real.exp_neg]
  have hinv : (Real.exp 1)⁻¹ < (2.7182818283 : ℝ)⁻¹ := by
    apply inv_lt_inv_of_lt (by norm_num) hgt
  nlinarith

theorem termExp_one_lt : termExp 1 < (265 : ℝ) / 1000 := by
  have hlt := Real.exp_one_lt_d9
  have hpos : (0 : ℝ) < Real.exp 1 := Real.exp_pos 1
  have hcast : ((1 : ℚ) : ℝ) = 1 := by norm_num
  rw [termExp, hcast, Real.exp_neg]
  have hinv : (2.7182818286 : ℝ)⁻¹ < (Real.exp 1)⁻¹ := by
    apply inv_lt_inv_of_lt hpos hlt
  nlinarith

theorem termExp_fifty_gt : (99 : ℝ) / 100 < termExp 50 := by
  have hgt := Real.exp_one_gt_d9
  have hcast : ((50 : ℚ) : ℝ) = 50 := by norm_num
  rw [termExp, hcast, Real.exp_neg]
  have h50 : Real.exp (50 : ℝ) = Real.exp 1 ^ (50 : ℕ) := by
    rw [show (50 : ℝ) = ((50 : ℕ) : ℝ) * 1 by norm_num, Real.exp_nat_mul]
  have hpow : (2 : ℝ) ^ (50 : ℕ) ≤ Real.exp 1 ^ (50 : ℕ) := by
    apply pow_le_pow_left (by norm_num)
    linarith
  have hbig : (5100 : ℝ) < Real.exp (50 : ℝ) := by
    rw [h50]
    calc (5100 : ℝ) < 2 ^ (50 : ℕ) := by norm_num
      _ ≤ Real.exp 1 ^ (50 : ℕ) := hpow
  have hexp_pos : (0 : ℝ) < Real.exp (50 : ℝ) := Real.exp_pos _
  have hinv : (Real.exp (50 : ℝ))⁻¹ < (5100 : ℝ)⁻¹ := by
    apply inv_lt_inv_of_lt (by norm_num) hbig
  nlinarith

/-- C5 counterexample: for the 1000-record single-entrant stratum the
estimator's expected double-winner count is `1000 · (1 − 2e⁻¹) ≈ 264.2` —
each participant gets rate λ = 1 — and in particular it exceeds 264, so it is
not approximately 0 as claimed. -/
theorem fairness_uniform_cex :
    expected_double_winners noExcl (uniBucket 1000) = 1000 * termExp 1 ∧
      (264 : ℝ) < expected_double_winners noExcl (uniBucket 1000) := by
  have h := exp_uniBucket 1000
  constructor
  · rw [h]; norm_num
  · rw [h]
    push_cast
    linarith [termExp_one_gt]

/-- C5 amended: for the synthetic stratum of 1000 single-entrant records with
no participant overlap the expected double-winner count is
`1000 · (1 − e⁻¹·2)`, which lies between 264 and 265 — not approximately 0:
the Poisson approximation assigns each λ = 1 participant probability
`1 − 2e⁻¹ ≈ 0.264` of a double win.  The second part of the claim holds: for
one participant entered in 100 records of 2 distinct entrants each, the
accumulated rate is λ = 50 and that participant's contribution lies strictly
between 0.99 and 1. -/
theorem fairness_synthetic_strata :
    expected_double_winners noExcl (uniBucket 1000) = 1000 * termExp 1 ∧
      (264 : ℝ) < expected_double_winners noExcl (uniBucket 1000) ∧
      expected_double_winners noExcl (uniBucket 1000) < 265 ∧
      clookup (five_star_lambda noExcl (pairBucket 100)) (JAtom.aint 0) =
        some 50 ∧
      (99 : ℝ) / 100 < termExp 50 ∧ termExp 50 < 1 := by
  have h := exp_uniBucket 1000
  refine ⟨by rw [h]; norm_num, ?_, ?_, ?_, termExp_fifty_gt,
    termExp_lt_one 50 (by norm_num)⟩
  · rw [h]
    push_cast
    linarith [termExp_one_gt]
  · rw [h]
    push_cast
    linarith [termExp_one_lt]
  · rw [lambda_pairBucket 100, if_neg (by norm_num)]
    simp only [clookup, List.find?]
    norm_num

end FMR
